import Mathlib

/-!
The hit counter of qsim `examples/arm64/cachesim.cpp`: the hashed set-associative hit counter

A shallow embedding of `class CacheHitCounter`.  `size_t` values are natural
numbers reduced modulo `2 ^ 64` wherever the C++ arithmetic can wrap.  The heap
array `addresses` is a `List Nat`; every array access of the C++ code is an
explicit bounds-checked access here, and an operation whose C++ original would
divide by zero or touch memory outside the allocation returns `none`.  The
free store is a parameter `heap` of the operations that allocate: a request it
cannot meet makes `new` throw, and the operation then returns `none` as well.
-/

namespace CacheSim

/-- Number of values of the 64-bit `size_t`. -/
def sizeMod : Nat := 2 ^ 64

/-- Source: `static const size_t cacheLineSizeLog2 = 6;` -/
def cacheLineSizeLog2 : Nat := 6

/-- Source: `static const size_t cacheLineSize = 1<<cacheLineSizeLog2;` -/
def cacheLineSize : Nat := 1 <<< cacheLineSizeLog2

/-- Which exit of `insert` an access took: the early `hits++; return` inside the
loop, or the `misses++` after it. -/
inductive Outcome where
  | Hit
  | Miss
deriving DecidableEq, Repr

/-- Data members of `class CacheHitCounter`. -/
structure CacheHitCounter where
  widthLog2 : Nat
  width : Nat
  widthMask : Nat
  hits : Nat
  misses : Nat
  addressesLen : Nat
  addresses : List Nat
  maxSize : Nat
deriving DecidableEq, Repr

namespace CacheHitCounter

/-- Source: `static const size_t depthLog2 = 4;` -/
def depthLog2 : Nat := 4

/-- Source: `static const size_t depth = 1<<depthLog2;` -/
def depth : Nat := 1 <<< depthLog2

/-- The loop `for (size_t i = 0; i < addressesLen; i++) addresses[i] = 0;` of
`clear`, at index `i` with `n` iterations left. -/
def clearLoop : Nat → Nat → List Nat → Option (List Nat)
  | 0, _, a => some a
  | n + 1, i, a => if i < a.length then clearLoop n (i + 1) (a.set i 0) else none

/-- Source: `void clear()`. -/
def clear (s : CacheHitCounter) : Option CacheHitCounter :=
  match clearLoop s.addressesLen 0 s.addresses with
  | none => none
  | some a => some { s with hits := 0, misses := 0, addresses := a }

/-- The expression `new size_t[n]`.  The free store is the parameter `heap`:
`heap n = none` when a request for `n` words cannot be met, in which case the
expression throws (`std::bad_alloc`) and yields no block; `heap n = some junk`
when it is met, with a block of `n` words whose indeterminate contents are
given by `junk`. -/
def newArray (n : Nat) (heap : Nat → Option (Nat → Nat)) : Option (List Nat) :=
  match heap n with
  | none => none
  | some junk => some ((List.range n).map junk)

/-- Source: `void initialize(size_t size)` (the source's name is a reserved
word of Lean, hence the spelling).  The object it is called on is `s`
(`widthLog2` is not assigned and keeps its value).  The result is `none` when
the call does not return: the exception thrown by `new` leaves the function
before `addresses` is assigned and before `clear()` runs. -/
def initialise (s : CacheHitCounter) (size : Nat) (heap : Nat → Option (Nat → Nat)) :
    Option CacheHitCounter :=
  let maxSize := size
  let width := size / ((1 <<< depthLog2) * cacheLineSize)
  let widthMask := (width + sizeMod - 1) % sizeMod
  let addressesLen := (depth * width) % sizeMod
  match newArray addressesLen heap with
  | none => none
  | some addresses =>
    clear { s with maxSize := maxSize, width := width, widthMask := widthMask,
                   addressesLen := addressesLen, addresses := addresses }

/-- The loop `for (; r < depth; r++)` of `insert`, at index `r` with carried
value `pc` and `n` iterations left; `base` is the offset `col*depth` of the
pointer `c`.  The flag tells whether the loop was left through the early
`return` (a match). -/
def insertLoop (cacheLine base : Nat) : Nat → Nat → Nat → List Nat → Option (List Nat × Bool)
  | 0, _, _, a => some (a, false)
  | n + 1, r, pc, a =>
    match a[base + r]? with
    | none => none
    | some oldC =>
      if oldC = cacheLine then some (a.set (base + r) pc, true)
      else insertLoop cacheLine base n (r + 1) oldC (a.set (base + r) pc)

/-- Source: `void insert(size_t cacheLine, size_t hashedCacheLine)`, together
with the exit it took. -/
def insertReport (s : CacheHitCounter) (cacheLine hashedCacheLine : Nat) :
    Option (Outcome × CacheHitCounter) :=
  if s.width = 0 then none
  else
    let col := hashedCacheLine % s.width
    match insertLoop cacheLine ((col * depth) % sizeMod) depth 0 cacheLine s.addresses with
    | none => none
    | some (a, true) =>
      some (Outcome.Hit, { s with addresses := a, hits := (s.hits + 1) % sizeMod })
    | some (a, false) =>
      some (Outcome.Miss, { s with addresses := a, misses := (s.misses + 1) % sizeMod })

/-- Source: `void insert(size_t cacheLine, size_t hashedCacheLine)`. -/
def insert (s : CacheHitCounter) (cacheLine hashedCacheLine : Nat) : Option CacheHitCounter :=
  (insertReport s cacheLine hashedCacheLine).map Prod.snd

/-- Source: `size_t getHits()`; a non-const member, so the object is returned
too. -/
def getHits (s : CacheHitCounter) : Nat × CacheHitCounter := (s.hits, s)

/-- Source: `size_t getTotalAccesses()`. -/
def getTotalAccesses (s : CacheHitCounter) : Nat × CacheHitCounter :=
  ((s.hits + s.misses) % sizeMod, s)

/-- A run of consecutive `insert(cacheLine, hashedCacheLine)` calls, collecting
the outcome of each. -/
def insertAll : CacheHitCounter → List (Nat × Nat) → Option (List Outcome × CacheHitCounter)
  | s, [] => some ([], s)
  | s, a :: rest =>
    match insertReport s a.1 a.2 with
    | none => none
    | some (o, s1) =>
      match insertAll s1 rest with
      | none => none
      | some (os, s2) => some (o :: os, s2)

/-- The object's storage is laid out as `initialize` leaves it: at least one
set, `depth` slots per set, the allocation as long as `addressesLen`, and all
`size_t` members within 64 bits. -/
def WF (s : CacheHitCounter) : Prop :=
  1 ≤ s.width ∧ s.addressesLen = depth * s.width ∧ s.addresses.length = s.addressesLen ∧
    s.addressesLen < sizeMod ∧ s.hits < sizeMod ∧ s.misses < sizeMod

instance (s : CacheHitCounter) : Decidable (WF s) := by
  unfold WF; infer_instance

/-- The `depth` way-slots of set `col`, position 0 first. -/
def getSet (s : CacheHitCounter) (col : Nat) : List Nat :=
  (s.addresses.drop (col * depth)).take depth

/-- One pass of the shift register over the slots of one set: `pc` is carried
in, the flag tells whether `cacheLine` was met. -/
def shiftIn (cacheLine : Nat) : Nat → List Nat → List Nat × Bool
  | _, [] => ([], false)
  | pc, x :: xs =>
    if x = cacheLine then (pc :: xs, true)
    else (pc :: (shiftIn cacheLine x xs).1, (shiftIn cacheLine x xs).2)

/-- Closed form of `insert` on a well-formed object (see `insertReport_eq`): the
selected set is replaced by one `shiftIn` pass over it, and one counter is
incremented in 64-bit arithmetic. -/
def insertOk (s : CacheHitCounter) (cl h : Nat) : Outcome × CacheHitCounter :=
  let col := h % s.width
  let r := shiftIn cl cl (getSet s col)
  let a := s.addresses.take (col * depth) ++ (r.1 ++ s.addresses.drop (col * depth + depth))
  if r.2 = true then (Outcome.Hit, { s with addresses := a, hits := (s.hits + 1) % sizeMod })
  else (Outcome.Miss, { s with addresses := a, misses := (s.misses + 1) % sizeMod })

/-- Closed form of `insertAll` on a well-formed object (see `insertAll_eq`). -/
def runOk : CacheHitCounter → List (Nat × Nat) → List Outcome × CacheHitCounter
  | s, [] => ([], s)
  | s, a :: rest =>
    ((insertOk s a.1 a.2).1 :: (runOk (insertOk s a.1 a.2).2 rest).1,
      (runOk (insertOk s a.1 a.2).2 rest).2)

/-- The object `s` is what `clear()` leaves of a well-formed object, or what
`initialize(size)` leaves when it returns, for a `size_t` value `size` of at
least `depth * cacheLineSize` bytes (so that there is at least one set). -/
def FreshlyReset (s : CacheHitCounter) : Prop :=
  (∃ s0, WF s0 ∧ clear s0 = some s) ∨
    (∃ s0 size heap, 1024 ≤ size ∧ size < sizeMod ∧ initialise s0 size heap = some s)

/-- Source: `double getHitRatio()`.  The `double` quotient is read as exact
rational arithmetic; a zero divisor yields no rational number (`none`). -/
def getHitRatio (s : CacheHitCounter) : Option ℚ × CacheHitCounter :=
  let total := (s.hits + s.misses) % sizeMod
  (if total = 0 then none else some ((s.hits : ℚ) / (total : ℚ)), s)

/-- Source: `double getMissRatio()`, read like `getHitRatio`. -/
def getMissRatio (s : CacheHitCounter) : Option ℚ × CacheHitCounter :=
  let total := (s.hits + s.misses) % sizeMod
  (if total = 0 then none else some ((s.misses : ℚ) / (total : ℚ)), s)

/-- One call made on the object by its user. -/
inductive Call where
  | clear
  | insert (cacheLine hashedCacheLine : Nat)
deriving DecidableEq, Repr

/-- A run of `clear()` and `insert(…)` calls, in order. -/
def drive : CacheHitCounter → List Call → Option CacheHitCounter
  | s, [] => some s
  | s, Call.clear :: rest =>
    match clear s with
    | none => none
    | some s1 => drive s1 rest
  | s, Call.insert cacheLine hashedCacheLine :: rest =>
    match insert s cacheLine hashedCacheLine with
    | none => none
    | some s1 => drive s1 rest

/-- The update of one set that the words "remove the first occurrence of
`cacheLine` (or, if there is none, the last element) and prepend `cacheLine`"
describe: move-to-front on a list. -/
def moveToFront (cacheLine : Nat) (set : List Nat) : List Nat :=
  cacheLine :: (if cacheLine ∈ set then set.erase cacheLine else set.dropLast)

end CacheHitCounter

/-- Source: `#define MB(x) ((x) << 20)`. -/
def MB (x : Nat) : Nat := x <<< 20

/-- Data members of `class TraceWriter` that belong to this program; the
reference `osd` to the external engine is kept in `StartState`. -/
structure TraceWriter where
  finished : Bool
  counter : CacheHitCounter
deriving DecidableEq, Repr

/-- Modelled from the spec: the external engine (`OSDomain`, declared in
`qsim.h`) is the event source to which `set_mem_cb` subscribes the memory
callback; of it only the number of `set_mem_cb` calls received is recorded.
`ran` is the function-local `static bool ran` of `app_start_cb`, which starts
as `false`. -/
structure StartState where
  ran : Bool
  memCbRegistrations : Nat
deriving DecidableEq, Repr

namespace TraceWriter

/-- Source: the constructor `TraceWriter(OSDomain &osd)`; `c0` is the
default-constructed `counter`, whose members are indeterminate.  When
`initialize` throws, so does the constructor, and there is no object. -/
def create (c0 : CacheHitCounter) (heap : Nat → Option (Nat → Nat)) : Option TraceWriter :=
  (CacheHitCounter.initialise c0 (MB 8) heap).map
    (fun counter => { finished := false, counter := counter })

/-- The state of the latch and of the engine when the program starts. -/
def startState : StartState := { ran := false, memCbRegistrations := 0 }

/-- Source: `int app_start_cb(int c)`. -/
def app_start_cb (w : StartState) (_c : Int) : Int × StartState :=
  if !w.ran then (1, { ran := true, memCbRegistrations := w.memCbRegistrations + 1 })
  else (0, w)

/-- A run of `app_start_cb` calls, collecting the values returned. -/
def startCalls : StartState → List Int → List Int × StartState
  | w, [] => ([], w)
  | w, c :: rest =>
    ((app_start_cb w c).1 :: (startCalls (app_start_cb w c).2 rest).1,
      (startCalls (app_start_cb w c).2 rest).2)

/-- The expression `v ^ (v >> 13)` of `mem_cb`, on a `uint64_t`. -/
def hashedAddr (v : Nat) : Nat := v ^^^ (v >>> 13)

/-- Source: `void mem_cb(int c, uint64_t v, uint64_t p, uint8_t s, int w)`. -/
def mem_cb (tw : TraceWriter) (_c : Int) (v _p _s : Nat) (_w : Int) : Option TraceWriter :=
  let hashed_addr := hashedAddr v
  match CacheHitCounter.insert tw.counter v hashed_addr with
  | none => none
  | some c1 => some { tw with counter := c1 }

/-- Source: `double get_hit_ratio()`. -/
def get_hit_ratio (tw : TraceWriter) : Option ℚ × TraceWriter :=
  ((CacheHitCounter.getHitRatio tw.counter).1,
    { tw with counter := (CacheHitCounter.getHitRatio tw.counter).2 })

end TraceWriter

/-- An example object: one set, all slots zero. -/
def demo : CacheHitCounter :=
  { widthLog2 := 0, width := 1, widthMask := 0, hits := 0, misses := 0,
    addressesLen := 16, addresses := List.replicate 16 0, maxSize := 1024 }

/-- The accesses `insert(1, 0), …, insert(16, 0)`. -/
def sixteenLines : List (Nat × Nat) :=
  [(1, 0), (2, 0), (3, 0), (4, 0), (5, 0), (6, 0), (7, 0), (8, 0), (9, 0), (10, 0), (11, 0),
    (12, 0), (13, 0), (14, 0), (15, 0), (16, 0)]

/-- The accesses `insert(21, 0), …, insert(36, 0)`. -/
def sixteenOthers : List (Nat × Nat) :=
  [(21, 0), (22, 0), (23, 0), (24, 0), (25, 0), (26, 0), (27, 0), (28, 0), (29, 0), (30, 0),
    (31, 0), (32, 0), (33, 0), (34, 0), (35, 0), (36, 0)]

/-- An example adapter whose model is `demo`. -/
def demoWriter : TraceWriter := { finished := false, counter := demo }

/-- An example object with one hit and two misses counted. -/
def demoCounted : CacheHitCounter := { demo with hits := 1, misses := 2 }

/-- An example object: one set that holds the lines 7 and 5 in its first two
slots. -/
def demoTwoLines : CacheHitCounter :=
  { demo with addresses := 7 :: 5 :: List.replicate 14 0 }

/-- An example object: one set that holds the lines 1 to 16, line 16 in the
last slot. -/
def demoFull : CacheHitCounter :=
  { demo with addresses := [1, 2, 3, 4, 5, 6, 7, 8, 9, 10, 11, 12, 13, 14, 15, 16] }

/-- An example free store that meets every request, with arbitrary contents. -/
def roomyHeap : Nat → Option (Nat → Nat) := fun _ => some (fun i => i + 7)

/-- An example free store that meets only requests below `2^32` words. -/
def tightHeap : Nat → Option (Nat → Nat) :=
  fun n => if n < 2 ^ 32 then some (fun _ => 0) else none

/-- An example object with two sets, all slots zero. -/
def demo2 : CacheHitCounter :=
  { widthLog2 := 0, width := 2, widthMask := 1, hits := 0, misses := 0,
    addressesLen := 32, addresses := List.replicate 32 0, maxSize := 2048 }

end CacheSim

namespace CacheSim
namespace CacheHitCounter

theorem depth_eq : depth = 16 := by decide

theorem sizeMod_eq : sizeMod = 18446744073709551616 := by decide

theorem shiftIn_length (cl : Nat) : ∀ (l : List Nat) (pc : Nat), (shiftIn cl pc l).1.length = l.length
  | [], _ => by simp [shiftIn]
  | x :: xs, pc => by
    by_cases h : x = cl
    · simp [shiftIn, h]
    · simp [shiftIn, h, shiftIn_length cl xs x]

theorem shiftIn_flag (cl : Nat) : ∀ (l : List Nat) (pc : Nat), (shiftIn cl pc l).2 = true ↔ cl ∈ l
  | [], _ => by simp [shiftIn]
  | x :: xs, pc => by
    by_cases h : x = cl
    · simp [shiftIn, h]
    · have h2 : ¬ cl = x := fun e => h e.symm
      simp [shiftIn, h, h2, shiftIn_flag cl xs x]

theorem insertLoop_append (cl : Nat) (pre post : List Nat) :
    ∀ (rest done : List Nat) (pc : Nat),
      insertLoop cl pre.length rest.length done.length pc (pre ++ (done ++ (rest ++ post))) =
        some (pre ++ (done ++ ((shiftIn cl pc rest).1 ++ post)), (shiftIn cl pc rest).2)
  | [], done, pc => by simp [insertLoop, shiftIn]
  | x :: xs, done, pc => by
    have hget : (pre ++ (done ++ (x :: xs ++ post)))[pre.length + done.length]? = some x := by
      rw [List.getElem?_append_right (by omega)]
      rw [List.getElem?_append_right (by omega)]
      simp
    have hset : (pre ++ (done ++ (x :: xs ++ post))).set (pre.length + done.length) pc =
        pre ++ ((done ++ [pc]) ++ (xs ++ post)) := by
      rw [List.set_append_right _ _ (by omega)]
      rw [List.set_append_right _ _ (by omega)]
      simp
    have ih := insertLoop_append cl pre post xs (done ++ [pc]) x
    simp only [List.length_cons, insertLoop, hget, hset]
    by_cases h : x = cl
    · simp [shiftIn, h]
    · simp only [List.length_append, List.length_singleton, List.append_assoc,
        List.singleton_append] at ih
      simp [shiftIn, h, ih]

theorem col_bound {s : CacheHitCounter} (hwf : WF s) (h : Nat) :
    (h % s.width) * depth + depth ≤ s.addresses.length ∧
      ((h % s.width) * depth) % sizeMod = (h % s.width) * depth := by
  obtain ⟨hw, hlen, halloc, hsz, -, -⟩ := hwf
  have hcol : h % s.width < s.width := Nat.mod_lt _ (by omega)
  have h1 : (h % s.width) * depth + depth ≤ depth * s.width := by
    have : (h % s.width + 1) * depth ≤ s.width * depth := Nat.mul_le_mul_right _ hcol
    rw [Nat.mul_comm depth s.width]
    rw [Nat.add_mul, Nat.one_mul] at this
    exact this
  have hd : 0 < depth := by rw [depth_eq]; omega
  constructor
  · omega
  · apply Nat.mod_eq_of_lt
    omega

theorem split_at_set (a : List Nat) (base d : Nat) (hb : base + d ≤ a.length) :
    a = a.take base ++ ((a.drop base).take d ++ a.drop (base + d)) ∧
      (a.take base).length = base ∧ ((a.drop base).take d).length = d := by
  refine ⟨?_, ?_, ?_⟩
  · have h1 : a.drop (base + d) = (a.drop base).drop d := by
      rw [List.drop_drop, Nat.add_comm]
    rw [h1, List.take_append_drop, List.take_append_drop]
  · rw [List.length_take]; omega
  · rw [List.length_take, List.length_drop]; omega

theorem getSet_length {s : CacheHitCounter} (hwf : WF s) (h : Nat) :
    (getSet s (h % s.width)).length = depth :=
  (split_at_set s.addresses _ depth (col_bound hwf h).1).2.2

/-- On a well-formed object `insert` runs to completion, and what it does is one
`shiftIn` pass over the selected set. -/
theorem insertReport_eq {s : CacheHitCounter} (hwf : WF s) (cl h : Nat) :
    insertReport s cl h = some (insertOk s cl h) := by
  unfold insertOk
  obtain ⟨hb, hmod⟩ := col_bound hwf h
  obtain ⟨hsplit, hl1, hl2⟩ := split_at_set s.addresses _ depth hb
  have hw : s.width ≠ 0 := by have := hwf.1; omega
  have key := insertLoop_append cl (s.addresses.take ((h % s.width) * depth))
    (s.addresses.drop ((h % s.width) * depth + depth)) (getSet s (h % s.width)) [] cl
  simp only [List.nil_append, List.length_nil] at key
  unfold getSet at key
  rw [hl1, hl2, ← hsplit] at key
  unfold insertReport
  simp only [hw, if_false, hmod]
  unfold getSet
  rw [key]
  cases hflag : (shiftIn cl cl (List.take depth (List.drop (h % s.width * depth) s.addresses))).2 <;>
    simp

theorem getElem?_splice (a new : List Nat) (base d i : Nat) (hb : base + d ≤ a.length)
    (hn : new.length = d) :
    (a.take base ++ (new ++ a.drop (base + d)))[i]? =
      if base ≤ i ∧ i < base + d then new[i - base]? else a[i]? := by
  have hl : (a.take base).length = base := by rw [List.length_take]; omega
  by_cases h1 : i < base
  · rw [List.getElem?_append_left (by omega), List.getElem?_take_of_lt h1]
    rw [if_neg (by omega)]
  · rw [List.getElem?_append_right (by omega), hl]
    by_cases h2 : i < base + d
    · rw [List.getElem?_append_left (by omega), if_pos (by omega)]
    · rw [List.getElem?_append_right (by omega), List.getElem?_drop, if_neg (by omega), hn]
      congr 1
      omega

theorem getSet_getElem? (s : CacheHitCounter) (A i : Nat) :
    (getSet s A)[i]? = if i < depth then s.addresses[A * depth + i]? else none := by
  unfold getSet
  rw [List.getElem?_take, List.getElem?_drop]

theorem mem_getSet_iff (s : CacheHitCounter) (A cl : Nat) :
    cl ∈ getSet s A ↔ ∃ r, r < depth ∧ s.addresses[A * depth + r]? = some cl := by
  rw [List.mem_iff_getElem?]
  constructor
  · rintro ⟨n, hn⟩
    rw [getSet_getElem?] at hn
    by_cases h : n < depth
    · rw [if_pos h] at hn
      exact ⟨n, h, hn⟩
    · rw [if_neg h] at hn
      cases hn
  · rintro ⟨r, hr, hget⟩
    refine ⟨r, ?_⟩
    rw [getSet_getElem?, if_pos hr]
    exact hget

theorem insertOk_addresses (s : CacheHitCounter) (cl h : Nat) :
    (insertOk s cl h).2.addresses =
      s.addresses.take ((h % s.width) * depth) ++
        ((shiftIn cl cl (getSet s (h % s.width))).1 ++
          s.addresses.drop ((h % s.width) * depth + depth)) := by
  simp only [insertOk]
  split <;> rfl

theorem insertOk_geometry (s : CacheHitCounter) (cl h : Nat) :
    (insertOk s cl h).2.width = s.width ∧ (insertOk s cl h).2.addressesLen = s.addressesLen ∧
      (insertOk s cl h).2.maxSize = s.maxSize ∧ (insertOk s cl h).2.widthMask = s.widthMask ∧
      (insertOk s cl h).2.widthLog2 = s.widthLog2 := by
  simp only [insertOk]
  split <;> simp

theorem insertOk_hit (s : CacheHitCounter) (cl h : Nat) :
    (insertOk s cl h).1 = Outcome.Hit ↔ cl ∈ getSet s (h % s.width) := by
  rw [← shiftIn_flag cl _ cl]
  simp only [insertOk]
  split <;> simp [*]

theorem insertOk_counters (s : CacheHitCounter) (cl h : Nat) :
    ((insertOk s cl h).1 = Outcome.Hit →
        (insertOk s cl h).2.hits = (s.hits + 1) % sizeMod ∧
          (insertOk s cl h).2.misses = s.misses) ∧
      ((insertOk s cl h).1 = Outcome.Miss →
        (insertOk s cl h).2.misses = (s.misses + 1) % sizeMod ∧
          (insertOk s cl h).2.hits = s.hits) := by
  simp only [insertOk]
  split <;> simp

theorem insertOk_getElem? {s : CacheHitCounter} (hwf : WF s) (cl h i : Nat) :
    (insertOk s cl h).2.addresses[i]? =
      if (h % s.width) * depth ≤ i ∧ i < (h % s.width) * depth + depth then
        (shiftIn cl cl (getSet s (h % s.width))).1[i - (h % s.width) * depth]?
      else s.addresses[i]? := by
  rw [insertOk_addresses]
  apply getElem?_splice _ _ _ _ _ (col_bound hwf h).1
  rw [shiftIn_length, getSet_length hwf]

theorem insertOk_wf {s : CacheHitCounter} (hwf : WF s) (cl h : Nat) :
    WF (insertOk s cl h).2 := by
  have hb := (col_bound hwf h).1
  have hlen : (insertOk s cl h).2.addresses.length = s.addresses.length := by
    rw [insertOk_addresses]
    simp only [List.length_append, List.length_take, List.length_drop, shiftIn_length,
      getSet_length hwf]
    omega
  obtain ⟨hw, hal, hmx, hmk, hlg⟩ := insertOk_geometry s cl h
  have hc := insertOk_counters s cl h
  obtain ⟨h1, h2, h3, h4, h5, h6⟩ := hwf
  have hpos : 0 < sizeMod := by rw [sizeMod_eq]; omega
  refine ⟨by omega, by rw [hal, hw]; exact h2, by rw [hlen, hal]; exact h3, by omega, ?_, ?_⟩
  · cases ho : (insertOk s cl h).1
    · rw [(hc.1 ho).1]; exact Nat.mod_lt _ hpos
    · rw [(hc.2 ho).2]; exact h5
  · cases ho : (insertOk s cl h).1
    · rw [(hc.1 ho).2]; exact h6
    · rw [(hc.2 ho).1]; exact Nat.mod_lt _ hpos

theorem insertOk_getSet_same {s : CacheHitCounter} (hwf : WF s) (cl h : Nat) :
    getSet (insertOk s cl h).2 (h % s.width) = (shiftIn cl cl (getSet s (h % s.width))).1 := by
  apply List.ext_getElem?
  intro n
  rw [getSet_getElem?, insertOk_getElem? hwf]
  by_cases hn : n < depth
  · rw [if_pos hn, if_pos (by omega)]
    congr 1
    omega
  · rw [if_neg hn]
    symm
    rw [List.getElem?_eq_none_iff, shiftIn_length, getSet_length hwf]
    omega

theorem insertOk_getSet_other {s : CacheHitCounter} (hwf : WF s) (cl h A : Nat)
    (hA : A ≠ h % s.width) :
    getSet (insertOk s cl h).2 A = getSet s A := by
  apply List.ext_getElem?
  intro n
  rw [getSet_getElem?, getSet_getElem?, insertOk_getElem? hwf]
  by_cases hn : n < depth
  · rw [if_pos hn, if_pos hn, if_neg]
    rintro ⟨h1, h2⟩
    apply hA
    have hd : 0 < depth := by rw [depth_eq]; omega
    have e1 : (A * depth + n) / depth = A := by
      rw [Nat.mul_comm, Nat.mul_add_div hd, Nat.div_eq_of_lt hn]; rfl
    have e2 : (A * depth + n) / depth = h % s.width := by
      apply Nat.div_eq_of_lt_le
      · exact h1
      · rw [Nat.add_mul, Nat.one_mul]; exact h2
    omega
  · rw [if_neg hn, if_neg hn]

theorem clearLoop_append (post : List Nat) :
    ∀ (mid pre : List Nat),
      clearLoop mid.length pre.length (pre ++ (mid ++ post)) =
        some (pre ++ (List.replicate mid.length 0 ++ post))
  | [], pre => by simp [clearLoop]
  | x :: xs, pre => by
    have hlt : pre.length < (pre ++ (x :: xs ++ post)).length := by
      simp
    have hset : (pre ++ (x :: xs ++ post)).set pre.length 0 = (pre ++ [0]) ++ (xs ++ post) := by
      rw [List.set_append_right _ _ (by omega)]
      simp
    have ih := clearLoop_append post xs (pre ++ [0])
    simp only [List.length_append, List.length_singleton] at ih
    simp only [List.length_cons, clearLoop, if_pos hlt, hset, ih]
    simp [List.replicate_succ]

/-- On an object whose allocation holds `addressesLen` words, `clear` runs to
completion and zeroes the first `addressesLen` words. -/
theorem clear_eq (s : CacheHitCounter) (h : s.addressesLen ≤ s.addresses.length) :
    clear s = some { s with
      hits := 0, misses := 0,
      addresses := List.replicate s.addressesLen 0 ++ s.addresses.drop s.addressesLen } := by
  have key := clearLoop_append (s.addresses.drop s.addressesLen)
    (s.addresses.take s.addressesLen) []
  have hl : (s.addresses.take s.addressesLen).length = s.addressesLen := by
    rw [List.length_take]; omega
  simp only [List.nil_append, List.length_nil, hl, List.take_append_drop] at key
  unfold clear
  rw [key]

theorem clear_eq_of_wf {s : CacheHitCounter} (hwf : WF s) :
    clear s = some { s with
      hits := 0, misses := 0, addresses := List.replicate s.addressesLen 0 } := by
  obtain ⟨-, -, h3, -, -, -⟩ := hwf
  rw [clear_eq s (by omega)]
  have : s.addresses.drop s.addressesLen = [] := by
    rw [List.drop_eq_nil_iff]; omega
  rw [this, List.append_nil]

theorem newArray_eq {n : Nat} {heap : Nat → Option (Nat → Nat)} {junk : Nat → Nat}
    (h : heap n = some junk) : newArray n heap = some ((List.range n).map junk) := by
  rw [newArray, h]

theorem newArray_none {n : Nat} {heap : Nat → Option (Nat → Nat)} (h : heap n = none) :
    newArray n heap = none := by
  rw [newArray, h]

/-- The call `initialize(size)` runs to completion when the allocation
succeeds, whatever `size` is. -/
theorem initialise_eq (s : CacheHitCounter) (size : Nat) {heap : Nat → Option (Nat → Nat)}
    {junk : Nat → Nat} (halloc : heap ((depth * (size / 1024)) % sizeMod) = some junk) :
    initialise s size heap =
      some { s with
        maxSize := size, width := size / 1024,
        widthMask := (size / 1024 + sizeMod - 1) % sizeMod,
        addressesLen := (depth * (size / 1024)) % sizeMod, hits := 0, misses := 0,
        addresses := List.replicate ((depth * (size / 1024)) % sizeMod) 0 } := by
  have hc : (1 <<< depthLog2) * cacheLineSize = 1024 := by decide
  have hlen : ((List.range ((depth * (size / 1024)) % sizeMod)).map junk).length =
      (depth * (size / 1024)) % sizeMod := by simp
  unfold initialise
  simp only [hc, newArray_eq halloc]
  rw [clear_eq _ (by show _ ≤ ((List.range _).map junk).length; rw [hlen])]
  have : ((List.range ((depth * (size / 1024)) % sizeMod)).map junk).drop
      ((depth * (size / 1024)) % sizeMod) = [] := by
    rw [List.drop_eq_nil_iff, hlen]
  simp only [this, List.append_nil]

/-- The call `initialize(size)` does not return when the allocation fails. -/
theorem initialise_none (s : CacheHitCounter) (size : Nat) {heap : Nat → Option (Nat → Nat)}
    (halloc : heap ((depth * (size / 1024)) % sizeMod) = none) :
    initialise s size heap = none := by
  have hc : (1 <<< depthLog2) * cacheLineSize = 1024 := by decide
  unfold initialise
  simp only [hc, newArray_none halloc]

theorem request_eq {size : Nat} (hfit : size < sizeMod) :
    (depth * (size / 1024)) % sizeMod = depth * (size / 1024) := by
  apply Nat.mod_eq_of_lt
  rw [depth_eq, sizeMod_eq] at *
  omega

/-- A freshly reset object is well-formed, its counters are zero and every
way-slot holds 0. -/
theorem FreshlyReset.spec {s : CacheHitCounter} (h : FreshlyReset s) :
    WF s ∧ s.hits = 0 ∧ s.misses = 0 ∧ s.addresses = List.replicate s.addressesLen 0 := by
  have hpos : 0 < sizeMod := by rw [sizeMod_eq]; omega
  rcases h with ⟨s0, hwf, hc⟩ | ⟨s0, size, heap, h1, h2, hi⟩
  · rw [clear_eq_of_wf hwf] at hc
    obtain ⟨a1, a2, a3, a4, a5, a6⟩ := hwf
    cases hc
    exact ⟨⟨a1, a2, by simp, a4, hpos, hpos⟩, rfl, rfl, rfl⟩
  · have hreq := request_eq h2
    rcases hh : heap ((depth * (size / 1024)) % sizeMod) with _ | junk
    · rw [initialise_none s0 size hh] at hi
      cases hi
    · rw [initialise_eq s0 size hh] at hi
      cases hi
      refine ⟨⟨?_, hreq, ?_, ?_, hpos, hpos⟩, rfl, rfl, rfl⟩
      · show 1 ≤ size / 1024
        omega
      · simp
      · exact Nat.mod_lt _ hpos

theorem FreshlyReset.getSet_eq {s : CacheHitCounter} (h : FreshlyReset s) (hash : Nat) :
    getSet s (hash % s.width) = List.replicate depth 0 := by
  obtain ⟨hwf, -, -, ha⟩ := h.spec
  have hb := (col_bound hwf hash).1
  apply List.ext_getElem?
  intro n
  rw [getSet_getElem?, ha, List.getElem?_replicate, List.getElem?_replicate]
  rw [ha, List.length_replicate] at hb
  by_cases hn : n < depth
  · rw [if_pos hn, if_pos hn, if_pos (by omega)]
  · rw [if_neg hn, if_neg hn]

theorem insertAll_eq : ∀ (accs : List (Nat × Nat)) {s : CacheHitCounter}, WF s →
    insertAll s accs = some (runOk s accs)
  | [], _, _ => rfl
  | a :: rest, s, hwf => by
    have ih := insertAll_eq rest (insertOk_wf hwf a.1 a.2)
    simp only [insertAll, insertReport_eq hwf, runOk]
    rw [ih]

theorem runOk_spec : ∀ (accs : List (Nat × Nat)) {s : CacheHitCounter}, WF s →
    WF (runOk s accs).2 ∧ (runOk s accs).2.width = s.width ∧
      (runOk s accs).1.length = accs.length ∧
      (s.hits + s.misses + accs.length < sizeMod →
        (runOk s accs).2.hits + (runOk s accs).2.misses = s.hits + s.misses + accs.length)
  | [], _, hwf => by simp [runOk, hwf]
  | a :: rest, s, hwf => by
    obtain ⟨i1, i2, i3, i4⟩ := runOk_spec rest (insertOk_wf hwf a.1 a.2)
    obtain ⟨g1, -⟩ := insertOk_geometry s a.1 a.2
    have hc := insertOk_counters s a.1 a.2
    refine ⟨i1, by simp only [runOk]; rw [i2, g1], by simp [runOk, i3], ?_⟩
    intro hlt
    simp only [List.length_cons] at hlt
    simp only [runOk, List.length_cons]
    have hsum : (insertOk s a.1 a.2).2.hits + (insertOk s a.1 a.2).2.misses =
        s.hits + s.misses + 1 := by
      cases ho : (insertOk s a.1 a.2).1
      · rw [(hc.1 ho).1, (hc.1 ho).2, Nat.mod_eq_of_lt (by omega)]; omega
      · rw [(hc.2 ho).1, (hc.2 ho).2, Nat.mod_eq_of_lt (by omega)]; omega
    rw [i4 (by omega), hsum]
    omega

theorem succ_mod_ne (x : Nat) : (x + 1) % sizeMod ≠ x := by
  rw [sizeMod_eq]
  omega

theorem outcome_cases (o : Outcome) : o = Outcome.Hit ∨ o = Outcome.Miss := by
  cases o
  · exact Or.inl rfl
  · exact Or.inr rfl

theorem insertOk_hit_iff_counters (s : CacheHitCounter) (cl h : Nat) :
    ((insertOk s cl h).1 = Outcome.Hit ↔
        ((insertOk s cl h).2.hits = (s.hits + 1) % sizeMod ∧
          (insertOk s cl h).2.misses = s.misses)) ∧
      ((insertOk s cl h).1 = Outcome.Miss ↔
        ((insertOk s cl h).2.misses = (s.misses + 1) % sizeMod ∧
          (insertOk s cl h).2.hits = s.hits)) := by
  obtain ⟨c1, c2⟩ := insertOk_counters s cl h
  constructor
  · refine ⟨c1, fun hc => ?_⟩
    rcases outcome_cases (insertOk s cl h).1 with ho | ho
    · exact ho
    · exact absurd ((c2 ho).2.symm.trans hc.1).symm (succ_mod_ne _)
  · refine ⟨c2, fun hc => ?_⟩
    rcases outcome_cases (insertOk s cl h).1 with ho | ho
    · exact absurd ((c1 ho).2.symm.trans hc.1).symm (succ_mod_ne _)
    · exact ho

theorem insert_eq {s : CacheHitCounter} (hwf : WF s) (cl h : Nat) :
    insert s cl h = some (insertOk s cl h).2 := by
  unfold insert
  rw [insertReport_eq hwf]
  rfl

theorem shiftIn_head (cl pc x : Nat) (xs : List Nat) :
    ∃ t, (shiftIn cl pc (x :: xs)).1 = pc :: t := by
  by_cases h : x = cl
  · exact ⟨xs, by simp [shiftIn, h]⟩
  · exact ⟨(shiftIn cl x xs).1, by simp [shiftIn, h]⟩

theorem not_mem_replicate_zero {cl : Nat} (hne : cl ≠ 0) (n : Nat) :
    cl ∉ List.replicate n 0 := by
  intro hmem
  exact hne (List.eq_of_mem_replicate hmem)

/-- On a freshly reset object an access to a non-zero line takes the Miss exit
and leaves that line in the selected set. -/
theorem FreshlyReset.first_insert {s : CacheHitCounter} (hf : FreshlyReset s) {cl : Nat}
    (hne : cl ≠ 0) (h : Nat) :
    (insertOk s cl h).1 = Outcome.Miss ∧ (insertOk s cl h).2.misses = 1 ∧
      (insertOk s cl h).2.hits = 0 ∧ cl ∈ getSet (insertOk s cl h).2 (h % s.width) := by
  obtain ⟨hwf, h0, m0, -⟩ := hf.spec
  have hset := hf.getSet_eq h
  have hmiss : (insertOk s cl h).1 = Outcome.Miss := by
    rcases outcome_cases (insertOk s cl h).1 with ho | ho
    · rw [insertOk_hit, hset] at ho
      exact absurd ho (not_mem_replicate_zero hne _)
    · exact ho
  obtain ⟨c1, c2⟩ := (insertOk_counters s cl h).2 hmiss
  refine ⟨hmiss, ?_, ?_, ?_⟩
  · rw [c1, m0]; decide
  · rw [c2, h0]
  · rw [insertOk_getSet_same hwf, hset, depth_eq]
    obtain ⟨t, ht⟩ := shiftIn_head cl cl 0 (List.replicate 15 0)
    rw [show List.replicate 16 0 = 0 :: List.replicate 15 0 from rfl, ht]
    exact List.mem_cons_self _ _

theorem insertOk_fst_congr (s1 s2 : CacheHitCounter) (cl h1 h2 : Nat)
    (hset : getSet s1 (h1 % s1.width) = getSet s2 (h2 % s2.width)) :
    (insertOk s1 cl h1).1 = (insertOk s2 cl h2).1 := by
  have e1 := insertOk_hit s1 cl h1
  have e2 := insertOk_hit s2 cl h2
  rw [hset] at e1
  rcases outcome_cases (insertOk s1 cl h1).1 with ho | ho
  · rw [ho, e2.2 (e1.1 ho)]
  · rcases outcome_cases (insertOk s2 cl h2).1 with ho2 | ho2
    · rw [e1.2 (e2.1 ho2), ho2]
    · rw [ho, ho2]

/-- The content of set `A` after a run is the fold of `shiftIn` over the
accesses of the run that select `A`. -/
theorem runOk_getSet (A : Nat) : ∀ (accs : List (Nat × Nat)) {s : CacheHitCounter}, WF s →
    getSet (runOk s accs).2 A =
      (accs.filter (fun a => decide (a.2 % s.width = A))).foldl
        (fun l a => (shiftIn a.1 a.1 l).1) (getSet s A)
  | [], _, _ => rfl
  | a :: rest, s, hwf => by
    have ih := runOk_getSet A rest (insertOk_wf hwf a.1 a.2)
    rw [(insertOk_geometry s a.1 a.2).1] at ih
    simp only [runOk]
    rw [ih, List.filter_cons]
    by_cases hA : a.2 % s.width = A
    · rw [if_pos (by simpa using hA), List.foldl_cons]
      subst hA
      rw [insertOk_getSet_same hwf]
    · rw [if_neg (by simpa using hA)]
      rw [insertOk_getSet_other hwf _ _ _ (fun e => hA e.symm)]

/-- The outcomes a run gives to the accesses that select set `A` depend only on
the content of `A` at the start and on those accesses. -/
theorem runOk_filter (A w : Nat) : ∀ (accs : List (Nat × Nat)) {s1 s2 : CacheHitCounter},
    WF s1 → WF s2 → s1.width = w → s2.width = w → getSet s1 A = getSet s2 A →
    ((accs.zip (runOk s1 accs).1).filter (fun p => decide (p.1.2 % w = A))).map Prod.snd =
      (runOk s2 (accs.filter (fun a => decide (a.2 % w = A)))).1
  | [], _, _, _, _, _, _, _ => rfl
  | a :: rest, s1, s2, hwf1, hwf2, hw1, hw2, hset => by
    have g1 := (insertOk_geometry s1 a.1 a.2).1
    have g2 := (insertOk_geometry s2 a.1 a.2).1
    simp only [runOk, List.zip_cons_cons, List.filter_cons]
    by_cases hA : a.2 % w = A
    · have hA1 : a.2 % s1.width = A := by rw [hw1]; exact hA
      have hA2 : a.2 % s2.width = A := by rw [hw2]; exact hA
      have hset2 : getSet (insertOk s1 a.1 a.2).2 A = getSet (insertOk s2 a.1 a.2).2 A := by
        rw [← hA1, insertOk_getSet_same hwf1, hA1, ← hA2, insertOk_getSet_same hwf2, hA2, hset]
      have ih := runOk_filter A w rest (insertOk_wf hwf1 a.1 a.2) (insertOk_wf hwf2 a.1 a.2)
        (g1.trans hw1) (g2.trans hw2) hset2
      have ho : (insertOk s1 a.1 a.2).1 = (insertOk s2 a.1 a.2).1 :=
        insertOk_fst_congr s1 s2 a.1 a.2 a.2 (by rw [hA1, hA2, hset])
      rw [if_pos (by simpa using hA), if_pos (by simpa using hA)]
      simp only [runOk, List.map_cons]
      rw [ih, ho]
    · have hA1 : A ≠ a.2 % s1.width := by rw [hw1]; exact fun e => hA e.symm
      have hset2 : getSet (insertOk s1 a.1 a.2).2 A = getSet s2 A := by
        rw [insertOk_getSet_other hwf1 _ _ _ hA1, hset]
      have ih := runOk_filter A w rest (insertOk_wf hwf1 a.1 a.2) hwf2 (g1.trans hw1) hw2 hset2
      rw [if_neg (by simpa using hA), if_neg (by simpa using hA)]
      exact ih

theorem shiftIn_take (cl : Nat) : ∀ (l : List Nat) (pc k : Nat), cl ∉ l.take k →
    ((shiftIn cl pc l).1).take (k + 1) = (pc :: l.take k).take l.length
  | [], _, _, _ => by simp [shiftIn]
  | x :: xs, pc, 0, _ => by
    obtain ⟨t, ht⟩ := shiftIn_head cl pc x xs
    rw [ht]
    simp
  | x :: xs, pc, k + 1, hk => by
    rw [List.take_succ_cons, List.mem_cons, not_or] at hk
    obtain ⟨hx, hrest⟩ := hk
    have hx2 : ¬ x = cl := fun e => hx e.symm
    have ih := shiftIn_take cl xs x k hrest
    simp only [shiftIn, if_neg hx2, List.take_succ_cons, List.length_cons]
    rw [ih]

/-- After a run of pairwise distinct line ids through one set, the set holds
the last ids of the run, most recent first. -/
theorem foldl_shiftIn_nodup (l : List Nat) : ∀ (ids : List Nat), ids.Nodup →
    (ids.foldl (fun l c => (shiftIn c c l).1) l).length = l.length ∧
      (ids.foldl (fun l c => (shiftIn c c l).1) l).take ids.length =
        ids.reverse.take l.length := by
  intro ids
  induction ids using List.reverseRecOn with
  | nil => intro _; simp
  | append_singleton ids x ih =>
    intro hnd
    rw [List.nodup_append] at hnd
    obtain ⟨hnd1, -, hdisj⟩ := hnd
    obtain ⟨ih1, ih2⟩ := ih hnd1
    have hx : x ∉ ids := fun hm => hdisj hm (List.mem_singleton_self x)
    rw [List.foldl_append, List.foldl_cons, List.foldl_nil]
    refine ⟨by rw [shiftIn_length, ih1], ?_⟩
    have hnot : x ∉ (ids.foldl (fun l c => (shiftIn c c l).1) l).take ids.length := by
      rw [ih2]
      intro hm
      exact hx (List.mem_reverse.1 (List.mem_of_mem_take hm))
    rw [List.length_append, List.length_singleton, shiftIn_take x _ x _ hnot, ih1, ih2,
      List.reverse_append, List.reverse_singleton, List.singleton_append]
    rw [← List.take_succ_cons, List.take_take]
    congr 1
    omega

/-- After `depth + 1` pairwise distinct line ids `L0, L1, …` were inserted
into one set, that set holds the last `depth` of them, most recent first. -/
theorem distinct_run_set {s : CacheHitCounter} (hwf : WF s) (L0 h0 : Nat)
    (rest : List (Nat × Nat)) (hlen : rest.length = depth)
    (hnd : (L0 :: rest.map Prod.fst).Nodup)
    (hset : ∀ a ∈ rest, a.2 % s.width = h0 % s.width) :
    getSet (runOk s ((L0, h0) :: rest)).2 (h0 % s.width) = (rest.map Prod.fst).reverse := by
  have hfilter : ((L0, h0) :: rest).filter (fun a => decide (a.2 % s.width = h0 % s.width)) =
      (L0, h0) :: rest := by
    rw [List.filter_eq_self]
    intro a ha
    rcases List.mem_cons.1 ha with rfl | ha
    · simp
    · simpa using hset a ha
  have hfold : ((L0, h0) :: rest).foldl (fun l a => (shiftIn a.1 a.1 l).1)
        (getSet s (h0 % s.width)) =
      (((L0, h0) :: rest).map Prod.fst).foldl (fun l c => (shiftIn c c l).1)
        (getSet s (h0 % s.width)) := by
    rw [List.foldl_map]
  obtain ⟨k1, k2⟩ := foldl_shiftIn_nodup (getSet s (h0 % s.width))
    (((L0, h0) :: rest).map Prod.fst) hnd
  rw [runOk_getSet _ _ hwf, hfilter, hfold]
  rw [getSet_length hwf] at k1 k2
  rw [List.take_of_length_le (by
    rw [k1, List.length_map, List.length_cons, hlen]; omega)] at k2
  rw [k2, List.map_cons, List.reverse_cons, List.take_append_of_le_length (by
    rw [List.length_reverse, List.length_map, hlen])]
  rw [List.take_of_length_le (by rw [List.length_reverse, List.length_map, hlen])]

/-- One `shiftIn` pass over a non-empty set is move-to-front with the carried
value put in front. -/
theorem shiftIn_cons (cl : Nat) : ∀ (xs : List Nat) (x pc : Nat),
    (shiftIn cl pc (x :: xs)).1 =
      pc :: (if cl ∈ x :: xs then (x :: xs).erase cl else (x :: xs).dropLast)
  | [], x, pc => by
    by_cases h : x = cl
    · subst h; simp [shiftIn]
    · have h2 : ¬ cl = x := fun e => h e.symm
      simp [shiftIn, h, h2]
  | y :: ys, x, pc => by
    by_cases h : x = cl
    · subst h; simp [shiftIn]
    · have h2 : ¬ cl = x := fun e => h e.symm
      have ih := shiftIn_cons cl ys y x
      have hmem : cl ∈ x :: y :: ys ↔ cl ∈ y :: ys := by
        rw [List.mem_cons]; exact ⟨fun hm => hm.resolve_left h2, Or.inr⟩
      have herase : (x :: y :: ys).erase cl = x :: (y :: ys).erase cl := by
        rw [List.erase_cons, if_neg (by simpa using h)]
      have e : (shiftIn cl pc (x :: y :: ys)).1 = pc :: (shiftIn cl x (y :: ys)).1 := by
        rw [shiftIn, if_neg h]
      rw [e, ih]
      by_cases hm : cl ∈ y :: ys
      · rw [if_pos hm, if_pos (hmem.2 hm), herase]
      · rw [if_neg hm, if_neg (fun hx => hm (hmem.1 hx))]
        rfl

theorem shiftIn_eq_moveToFront (cl : Nat) (l : List Nat) (hl : l ≠ []) :
    (shiftIn cl cl l).1 = moveToFront cl l := by
  cases l with
  | nil => exact absurd rfl hl
  | cons x xs => exact shiftIn_cons cl xs x cl

/-- Slots of a set after a pass that meets `cl` first at position `r`. -/
theorem shiftIn_getElem?_hit (cl : Nat) : ∀ (l : List Nat) (pc r : Nat),
    (∀ j, j < r → l[j]? ≠ some cl) → l[r]? = some cl →
    ∀ i, (shiftIn cl pc l).1[i]? =
      if i = 0 then some pc else if i ≤ r then l[i - 1]? else l[i]?
  | [], _, r, _, hr => by simp at hr
  | x :: xs, pc, 0, _, hr => by
    have hx : x = cl := by simpa using hr
    intro i
    cases i with
    | zero => simp [shiftIn, hx]
    | succ i => simp [shiftIn, hx]
  | x :: xs, pc, r + 1, hbefore, hr => by
    have hx : ¬ x = cl := by
      have := hbefore 0 (by omega)
      simpa using this
    have ih := shiftIn_getElem?_hit cl xs x r
      (fun j hj => by simpa using hbefore (j + 1) (by omega)) (by simpa using hr)
    intro i
    cases i with
    | zero => simp [shiftIn, hx]
    | succ i =>
      simp only [shiftIn, if_neg hx, List.getElem?_cons_succ, ih i]
      cases i with
      | zero => simp
      | succ i =>
        by_cases hi : i + 1 ≤ r
        · simp [hi]
        · simp [hi]

/-- Slots of a set after a pass that does not meet `cl`. -/
theorem shiftIn_miss (cl : Nat) : ∀ (l : List Nat) (pc : Nat), cl ∉ l →
    (shiftIn cl pc l).1 = (pc :: l).take l.length
  | [], _, _ => by simp [shiftIn]
  | x :: xs, pc, hmem => by
    rw [List.mem_cons, not_or] at hmem
    have hx : ¬ x = cl := fun e => hmem.1 e.symm
    simp only [shiftIn, if_neg hx, List.length_cons, List.take_succ_cons]
    rw [shiftIn_miss cl xs x hmem.2]

theorem clear_wf {s : CacheHitCounter} (hwf : WF s) :
    ∃ s1, clear s = some s1 ∧ WF s1 := by
  have hpos : 0 < sizeMod := by rw [sizeMod_eq]; omega
  obtain ⟨a1, a2, a3, a4, a5, a6⟩ := hwf
  refine ⟨_, clear_eq_of_wf ⟨a1, a2, a3, a4, a5, a6⟩, a1, a2, ?_, a4, hpos, hpos⟩
  simp

theorem drive_wf : ∀ (calls : List Call) {s : CacheHitCounter}, WF s →
    ∃ s1, drive s calls = some s1 ∧ WF s1
  | [], s, hwf => ⟨s, rfl, hwf⟩
  | Call.clear :: rest, s, hwf => by
    obtain ⟨s1, h1, hwf1⟩ := clear_wf hwf
    obtain ⟨s2, h2, hwf2⟩ := drive_wf rest hwf1
    exact ⟨s2, by simp only [drive, h1, h2], hwf2⟩
  | Call.insert cl h :: rest, s, hwf => by
    obtain ⟨s2, h2, hwf2⟩ := drive_wf rest (insertOk_wf hwf cl h)
    exact ⟨s2, by simp only [drive, insert_eq hwf, h2], hwf2⟩

/-- The slots that a Hit with first match at position `r` leaves behind. -/
theorem insertOk_getElem?_hit {s : CacheHitCounter} (hwf : WF s) (cl h r : Nat)
    (hr : r < depth)
    (hbefore : ∀ j, j < r → s.addresses[(h % s.width) * depth + j]? ≠ some cl)
    (hat : s.addresses[(h % s.width) * depth + r]? = some cl) :
    (insertOk s cl h).1 = Outcome.Hit ∧
      ∀ i, i < depth → (insertOk s cl h).2.addresses[(h % s.width) * depth + i]? =
        if i = 0 then some cl
        else if i ≤ r then s.addresses[(h % s.width) * depth + (i - 1)]?
        else s.addresses[(h % s.width) * depth + i]? := by
  have hset_at : (getSet s (h % s.width))[r]? = some cl := by
    rw [getSet_getElem?, if_pos hr]; exact hat
  have hset_before : ∀ j, j < r → (getSet s (h % s.width))[j]? ≠ some cl := by
    intro j hj
    rw [getSet_getElem?, if_pos (by omega)]
    exact hbefore j hj
  constructor
  · rw [insertOk_hit, List.mem_iff_getElem?]
    exact ⟨r, hset_at⟩
  · intro i hi
    rw [insertOk_getElem? hwf, if_pos (by omega), Nat.add_sub_cancel_left,
      shiftIn_getElem?_hit cl _ cl r hset_before hset_at i]
    by_cases h0 : i = 0
    · rw [if_pos h0, if_pos h0]
    · have h1 : i - 1 < depth := by omega
      rw [if_neg h0, if_neg h0]
      simp only [getSet_getElem?, if_pos hi, if_pos h1]

/-- The selected set after a Miss. -/
theorem insertOk_getSet_miss {s : CacheHitCounter} (hwf : WF s) (cl h : Nat)
    (hmiss : (insertOk s cl h).1 = Outcome.Miss) :
    getSet (insertOk s cl h).2 (h % s.width) = cl :: (getSet s (h % s.width)).dropLast := by
  have hnot : cl ∉ getSet s (h % s.width) := by
    intro hm
    have := (insertOk_hit s cl h).2 hm
    rw [hmiss] at this
    cases this
  rw [insertOk_getSet_same hwf, shiftIn_miss cl _ cl hnot, List.dropLast_eq_take]
  have hlen := getSet_length hwf h
  have hd : depth = 16 := depth_eq
  cases hl : getSet s (h % s.width) with
  | nil => rw [hl] at hlen; simp at hlen; omega
  | cons x xs => simp

theorem count_le_of_sublist_replicate_zero {x : Nat} (hx : x ≠ 0) {l : List Nat} {n : Nat}
    (hl : l.Sublist (List.replicate n 0)) : l.count x ≤ 1 := by
  have h1 := hl.count_le x
  have h2 : (List.replicate n 0).count x = 0 :=
    List.count_eq_zero_of_not_mem (not_mem_replicate_zero hx n)
  omega

/-- One pass keeps the property that no non-zero value occurs twice in the
set. -/
theorem shiftIn_count_le (cl : Nat) (l : List Nat) (hinv : ∀ x, x ≠ 0 → l.count x ≤ 1) :
    ∀ x, x ≠ 0 → ((shiftIn cl cl l).1).count x ≤ 1 := by
  intro x hx
  cases l with
  | nil => simp [shiftIn]
  | cons y ys =>
    rw [shiftIn_cons]
    by_cases hm : cl ∈ y :: ys
    · rw [if_pos hm]
      by_cases hxc : x = cl
      · subst hxc
        rw [List.count_cons_self, List.count_erase_self]
        have := hinv x hx
        omega
      · rw [List.count_cons_of_ne hxc, List.count_erase_of_ne hxc]
        exact hinv x hx
    · rw [if_neg hm]
      by_cases hxc : x = cl
      · subst hxc
        rw [List.count_cons_self]
        have h0 : (y :: ys).dropLast.count x = 0 :=
          List.count_eq_zero_of_not_mem
            (fun hmem => hm ((List.dropLast_sublist _).subset hmem))
        omega
      · rw [List.count_cons_of_ne hxc]
        exact le_trans ((List.dropLast_sublist _).count_le x) (hinv x hx)

theorem insertOk_count_le {s : CacheHitCounter} (hwf : WF s) (cl h : Nat)
    (hinv : ∀ A x, x ≠ 0 → (getSet s A).count x ≤ 1) :
    ∀ A x, x ≠ 0 → (getSet (insertOk s cl h).2 A).count x ≤ 1 := by
  intro A x hx
  by_cases hA : A = h % s.width
  · subst hA
    rw [insertOk_getSet_same hwf]
    exact shiftIn_count_le cl _ (hinv _) x hx
  · rw [insertOk_getSet_other hwf _ _ _ hA]
    exact hinv A x hx

theorem runOk_count_le : ∀ (accs : List (Nat × Nat)) {s : CacheHitCounter}, WF s →
    (∀ A x, x ≠ 0 → (getSet s A).count x ≤ 1) →
    ∀ A x, x ≠ 0 → (getSet (runOk s accs).2 A).count x ≤ 1
  | [], _, _, hinv => hinv
  | a :: rest, _, hwf, hinv =>
    runOk_count_le rest (insertOk_wf hwf a.1 a.2) (insertOk_count_le hwf a.1 a.2 hinv)

theorem FreshlyReset.count_le {s : CacheHitCounter} (hf : FreshlyReset s) :
    ∀ A x, x ≠ 0 → (getSet s A).count x ≤ 1 := by
  intro A x hx
  obtain ⟨-, -, -, ha⟩ := hf.spec
  apply count_le_of_sublist_replicate_zero hx (n := s.addressesLen)
  rw [← ha]
  exact (List.take_sublist _ _).trans (List.drop_sublist _ _)

theorem getHitRatio_fst (s : CacheHitCounter) (hpos : 0 < s.hits + s.misses)
    (hfit : s.hits + s.misses < sizeMod) :
    (getHitRatio s).1 = some ((s.hits : ℚ) / ((s.hits : ℚ) + (s.misses : ℚ))) := by
  have hmod : (s.hits + s.misses) % sizeMod = s.hits + s.misses := Nat.mod_eq_of_lt hfit
  have hne : s.hits + s.misses ≠ 0 := by omega
  show (if (s.hits + s.misses) % sizeMod = 0 then none
    else some ((s.hits : ℚ) / (((s.hits + s.misses) % sizeMod : ℕ) : ℚ))) = _
  rw [hmod, if_neg hne, Nat.cast_add]

theorem getMissRatio_fst (s : CacheHitCounter) (hpos : 0 < s.hits + s.misses)
    (hfit : s.hits + s.misses < sizeMod) :
    (getMissRatio s).1 = some ((s.misses : ℚ) / ((s.hits : ℚ) + (s.misses : ℚ))) := by
  have hmod : (s.hits + s.misses) % sizeMod = s.hits + s.misses := Nat.mod_eq_of_lt hfit
  have hne : s.hits + s.misses ≠ 0 := by omega
  show (if (s.hits + s.misses) % sizeMod = 0 then none
    else some ((s.misses : ℚ) / (((s.hits + s.misses) % sizeMod : ℕ) : ℚ))) = _
  rw [hmod, if_neg hne, Nat.cast_add]

/-- On a freshly reset object, an access to a non-zero line, an access to
another non-zero line in another set, and the first access again give Miss,
Miss, Hit. -/
theorem runOk_miss_miss_hit {s : CacheHitCounter} (hf : FreshlyReset s) (x y hx hy : Nat)
    (hx0 : x ≠ 0) (hy0 : y ≠ 0) (hsets : hy % s.width ≠ hx % s.width) :
    ∃ s1 s2 s3, WF s1 ∧ WF s2 ∧ insert s x hx = some s1 ∧ insert s1 y hy = some s2 ∧
      insert s2 x hx = some s3 ∧
      insertAll s [(x, hx), (y, hy), (x, hx)] =
        some ([Outcome.Miss, Outcome.Miss, Outcome.Hit], s3) ∧
      s3.hits = 1 ∧ s3.misses = 2 := by
  obtain ⟨hwf0, -, -, -⟩ := hf.spec
  obtain ⟨o1, m1, h1, mem1⟩ := hf.first_insert hx0 hx
  have hwf1 := insertOk_wf hwf0 x hx
  have w1 : (insertOk s x hx).2.width = s.width := (insertOk_geometry _ _ _).1
  have set2 : getSet (insertOk s x hx).2 (hy % (insertOk s x hx).2.width) =
      List.replicate depth 0 := by
    rw [w1, insertOk_getSet_other hwf0 _ _ _ hsets, hf.getSet_eq]
  have o2 : (insertOk (insertOk s x hx).2 y hy).1 = Outcome.Miss := by
    rcases outcome_cases (insertOk (insertOk s x hx).2 y hy).1 with ho | ho
    · rw [insertOk_hit, set2] at ho
      exact absurd ho (not_mem_replicate_zero hy0 _)
    · exact ho
  obtain ⟨m2, h2⟩ := (insertOk_counters _ _ _).2 o2
  have hwf2 := insertOk_wf hwf1 y hy
  have w2 : (insertOk (insertOk s x hx).2 y hy).2.width = s.width :=
    ((insertOk_geometry _ _ _).1).trans w1
  have o3 : (insertOk (insertOk (insertOk s x hx).2 y hy).2 x hx).1 = Outcome.Hit := by
    rw [insertOk_hit, w2, insertOk_getSet_other hwf1 _ _ _ (by rw [w1]; exact hsets.symm)]
    exact mem1
  obtain ⟨h3, m3⟩ := (insertOk_counters _ _ _).1 o3
  refine ⟨_, _, _, hwf1, hwf2, insert_eq hwf0 x hx, insert_eq hwf1 y hy, insert_eq hwf2 x hx,
    ?_, ?_, ?_⟩
  · rw [insertAll_eq _ hwf0]
    simp only [runOk, o1, o2, o3]
  · rw [h3, h2, h1]; decide
  · rw [m3, m2, m1]; decide

end CacheHitCounter

open CacheHitCounter

namespace TraceWriter

theorem MB_eight : MB 8 = 8388608 := by decide

theorem MB_eight_bounds : 1024 ≤ MB 8 ∧ MB 8 < sizeMod ∧ MB 8 / 1024 = 8192 := by decide

/-- The call `initialize(size)` with `1024 ≤ size < 2^64` whose allocation
succeeds leaves a freshly reset object with `size / 1024` sets. -/
theorem initialise_fresh (s0 : CacheHitCounter) (size : Nat) {heap : Nat → Option (Nat → Nat)}
    {junk : Nat → Nat} (h1 : 1024 ≤ size) (h2 : size < sizeMod)
    (halloc : heap (depth * (size / 1024)) = some junk) :
    ∃ c, initialise s0 size heap = some c ∧ FreshlyReset c ∧ c.width = size / 1024 ∧
      c.maxSize = size := by
  rw [← request_eq h2] at halloc
  exact ⟨_, initialise_eq s0 size halloc,
    Or.inr ⟨s0, size, heap, h1, h2, initialise_eq s0 size halloc⟩, rfl, rfl⟩

/-- The constructor runs to completion when its allocation succeeds, and
leaves a freshly initialized counter with 8192 sets. -/
theorem create_eq (c0 : CacheHitCounter) {heap : Nat → Option (Nat → Nat)} {junk : Nat → Nat}
    (halloc : heap (depth * 8192) = some junk) :
    ∃ tw0, create c0 heap = some tw0 ∧ tw0.finished = false ∧ FreshlyReset tw0.counter ∧
      tw0.counter.width = 8192 ∧ tw0.counter.maxSize = MB 8 := by
  rw [← MB_eight_bounds.2.2] at halloc
  obtain ⟨c, hc, hf, hw, hm⟩ :=
    initialise_fresh c0 (MB 8) MB_eight_bounds.1 MB_eight_bounds.2.1 halloc
  refine ⟨{ finished := false, counter := c }, ?_, rfl, hf, ?_, hm⟩
  · show (initialise c0 (MB 8) heap).map _ = _
    rw [hc]
    rfl
  · show c.width = 8192
    rw [hw]
    exact MB_eight_bounds.2.2

theorem mem_cb_eq {tw : TraceWriter} (hwf : WF tw.counter) (c : Int) (v p sz : Nat) (w : Int) :
    mem_cb tw c v p sz w =
      some { tw with counter := (insertOk tw.counter v (hashedAddr v)).2 } := by
  simp only [mem_cb, insert_eq hwf]

theorem mem_cb_of_insert (tw : TraceWriter) (c : Int) (v p sz : Nat) (w : Int)
    {c1 : CacheHitCounter} (h : insert tw.counter v (hashedAddr v) = some c1) :
    mem_cb tw c v p sz w = some { tw with counter := c1 } := by
  simp only [mem_cb, h]

theorem hashedAddr_lt {v : Nat} (hv : v < 2 ^ 64) : hashedAddr v < 2 ^ 64 := by
  apply Nat.xor_lt_two_pow hv
  rw [Nat.shiftRight_eq_div_pow]
  exact lt_of_le_of_lt (Nat.div_le_self _ _) hv

theorem startCalls_ran : ∀ (cs : List Int) (n : Nat),
    startCalls { ran := true, memCbRegistrations := n } cs =
      (List.replicate cs.length 0, { ran := true, memCbRegistrations := n })
  | [], _ => rfl
  | c :: rest, n => by
    have ih := startCalls_ran rest n
    have e : app_start_cb { ran := true, memCbRegistrations := n } c =
        (0, { ran := true, memCbRegistrations := n }) := rfl
    simp only [startCalls, e, ih, List.length_cons, List.replicate_succ]

end TraceWriter

open TraceWriter

/-- C1: on every well-formed object (in particular `width ≥ 1`) the call
`insert(cacheLine, hashedCacheLine)` runs to completion.  It takes the Hit exit
exactly when one of the `depth = 16` way-slots of set `hashedCacheLine % width`
held `cacheLine` before the call, and the Miss exit otherwise.  The Hit exit is
the one that increments `hits` by one (`hits++` on the 64-bit counter) and
leaves `misses` unchanged; the Miss exit is the one that increments `misses` by
one and leaves `hits` unchanged. -/
theorem insert_hit_iff_resident (s : CacheHitCounter) (cacheLine hashedCacheLine : Nat)
    (hwf : WF s) :
    depth = 16 ∧
    ∃ o s1, insertReport s cacheLine hashedCacheLine = some (o, s1) ∧
      insert s cacheLine hashedCacheLine = some s1 ∧
      (o = Outcome.Hit ↔
        ∃ r, r < depth ∧ s.addresses[(hashedCacheLine % s.width) * depth + r]? = some cacheLine) ∧
      (o = Outcome.Miss ↔
        ¬ ∃ r, r < depth ∧ s.addresses[(hashedCacheLine % s.width) * depth + r]? = some cacheLine) ∧
      (o = Outcome.Hit ↔ (s1.hits = (s.hits + 1) % sizeMod ∧ s1.misses = s.misses)) ∧
      (o = Outcome.Miss ↔ (s1.misses = (s.misses + 1) % sizeMod ∧ s1.hits = s.hits)) := by
  refine ⟨depth_eq, (insertOk s cacheLine hashedCacheLine).1,
    (insertOk s cacheLine hashedCacheLine).2, insertReport_eq hwf _ _, insert_eq hwf _ _, ?_, ?_,
    (insertOk_hit_iff_counters _ _ _).1, (insertOk_hit_iff_counters _ _ _).2⟩
  · rw [insertOk_hit, mem_getSet_iff]
  · rw [← mem_getSet_iff, ← insertOk_hit]
    rcases outcome_cases (insertOk s cacheLine hashedCacheLine).1 with ho | ho <;> simp [ho]

/-- Witness for C1: the one-set object `demo` is well-formed, and the theorem
applies to the access `insert(5, 0)` on it. -/
theorem insert_hit_iff_resident_witness :
    WF demo ∧ (depth = 16 ∧
    ∃ o s1, insertReport demo 5 0 = some (o, s1) ∧
      insert demo 5 0 = some s1 ∧
      (o = Outcome.Hit ↔
        ∃ r, r < depth ∧ demo.addresses[(0 % demo.width) * depth + r]? = some 5) ∧
      (o = Outcome.Miss ↔
        ¬ ∃ r, r < depth ∧ demo.addresses[(0 % demo.width) * depth + r]? = some 5) ∧
      (o = Outcome.Hit ↔ (s1.hits = (demo.hits + 1) % sizeMod ∧ s1.misses = demo.misses)) ∧
      (o = Outcome.Miss ↔ (s1.misses = (demo.misses + 1) % sizeMod ∧ s1.hits = demo.hits))) :=
  ⟨by decide, insert_hit_iff_resident demo 5 0 (by decide)⟩

/-- C2: for every sequence of `N < 2^64` `insert` calls applied to an object
right after `clear()` or `initialize`, with arbitrary line ids and hashes, the
calls all run to completion, `hits + misses = N`, `getTotalAccesses()` returns
`N`, and `getHits()` returns the `hits` counter; neither accessor changes the
object. -/
theorem counters_sum_to_accesses (s : CacheHitCounter) (accs : List (Nat × Nat))
    (hfresh : FreshlyReset s) (hN : accs.length < sizeMod) :
    ∃ os s1, insertAll s accs = some (os, s1) ∧ s1.hits + s1.misses = accs.length ∧
      (getTotalAccesses s1).1 = accs.length ∧ (getTotalAccesses s1).2 = s1 ∧
      (getHits s1).1 = s1.hits ∧ (getHits s1).2 = s1 := by
  obtain ⟨hwf, h0, m0, -⟩ := hfresh.spec
  obtain ⟨-, -, -, hsum⟩ := runOk_spec accs hwf
  rw [h0, m0] at hsum
  have hs : (runOk s accs).2.hits + (runOk s accs).2.misses = accs.length := by
    rw [hsum (by omega)]; omega
  refine ⟨(runOk s accs).1, (runOk s accs).2, insertAll_eq accs hwf, hs, ?_, rfl, rfl, rfl⟩
  show ((runOk s accs).2.hits + (runOk s accs).2.misses) % sizeMod = accs.length
  rw [hs]
  exact Nat.mod_eq_of_lt hN

/-- Witness for C2: `demo` is what `clear()` leaves of itself, and the theorem
applies to three accesses on it. -/
theorem counters_sum_to_accesses_witness :
    FreshlyReset demo ∧ [(5, 0), (5, 1), (7, 3)].length < sizeMod ∧
    ∃ os s1, insertAll demo [(5, 0), (5, 1), (7, 3)] = some (os, s1) ∧
      s1.hits + s1.misses = [(5, 0), (5, 1), (7, 3)].length ∧
      (getTotalAccesses s1).1 = [(5, 0), (5, 1), (7, 3)].length ∧ (getTotalAccesses s1).2 = s1 ∧
      (getHits s1).1 = s1.hits ∧ (getHits s1).2 = s1 :=
  ⟨Or.inl ⟨demo, by decide, by decide⟩, by decide,
    counters_sum_to_accesses demo [(5, 0), (5, 1), (7, 3)] (Or.inl ⟨demo, by decide, by decide⟩)
      (by decide)⟩

/-- C3, counterexample: `demo` is what `initialize(1024)` yields (one set, every
slot 0, counters 0), and its first access `insert(0, 0)` takes the Hit exit,
leaving `hits == 1` and `misses == 0`: the slots' initial value 0 equals the
line id 0. -/
theorem first_access_line_zero_hit :
    initialise demo 1024 roomyHeap = some demo ∧ 1 ≤ demo.width ∧
      ∃ s1, insertReport demo 0 0 = some (Outcome.Hit, s1) ∧ insert demo 0 0 = some s1 ∧
        s1.hits = 1 ∧ s1.misses = 0 :=
  ⟨by decide, by decide, { demo with hits := 1 }, by decide, by decide, rfl, rfl⟩

/-- C3, amended: on a freshly initialized or freshly cleared object (with
`width ≥ 1`), `insert(lineId, hash)` for every non-zero `lineId` and every
`hash` runs to completion and is a Miss, leaving `misses == 1` and
`hits == 0`. -/
theorem first_access_nonzero_miss (s : CacheHitCounter) (lineId hash : Nat)
    (hfresh : FreshlyReset s) (hne : lineId ≠ 0) :
    1 ≤ s.width ∧
    ∃ s1, insertReport s lineId hash = some (Outcome.Miss, s1) ∧
      insert s lineId hash = some s1 ∧ s1.misses = 1 ∧ s1.hits = 0 := by
  obtain ⟨hwf, -, -, -⟩ := hfresh.spec
  obtain ⟨hm, h1, h2, -⟩ := hfresh.first_insert hne hash
  refine ⟨hwf.1, (insertOk s lineId hash).2, ?_, insert_eq hwf _ _, h1, h2⟩
  rw [insertReport_eq hwf, ← hm]

/-- Witness for the amended C3: `demo` is what `clear()` leaves of itself, and
the theorem applies to its first access `insert(5, 0)`. -/
theorem first_access_nonzero_miss_witness :
    FreshlyReset demo ∧ (5 : Nat) ≠ 0 ∧ (1 ≤ demo.width ∧
    ∃ s1, insertReport demo 5 0 = some (Outcome.Miss, s1) ∧
      insert demo 5 0 = some s1 ∧ s1.misses = 1 ∧ s1.hits = 0) :=
  ⟨Or.inl ⟨demo, by decide, by decide⟩, by decide,
    first_access_nonzero_miss demo 5 0 (Or.inl ⟨demo, by decide, by decide⟩) (by decide)⟩

/-- C4, counterexample: `demo` is what `clear()` leaves of itself, and on it
`insert(0, 0)` followed by `insert(0, 0)` yields Hit then Hit, ending with
`hits == 2` and `misses == 0`. -/
theorem repeat_of_line_zero_hits_twice :
    clear demo = some demo ∧ 1 ≤ demo.width ∧
      ∃ s2, insertAll demo [(0, 0), (0, 0)] = some ([Outcome.Hit, Outcome.Hit], s2) ∧
        s2.hits = 2 ∧ s2.misses = 0 :=
  ⟨by decide, by decide, { demo with hits := 2 }, by decide, rfl, rfl⟩

/-- C4, amended: on a freshly cleared (or freshly initialized) object with
`width ≥ 1`, for every non-zero line id `X` and every hash `H`, `insert(X, H)`
followed immediately by `insert(X, H)` runs to completion and yields Miss then
Hit, ending with `hits == 1` and `misses == 1`. -/
theorem immediate_repeat_nonzero_hits (s : CacheHitCounter) (X H : Nat)
    (hfresh : FreshlyReset s) (hne : X ≠ 0) :
    1 ≤ s.width ∧
    ∃ s2, insertAll s [(X, H), (X, H)] = some ([Outcome.Miss, Outcome.Hit], s2) ∧
      s2.hits = 1 ∧ s2.misses = 1 := by
  obtain ⟨hwf, -, -, -⟩ := hfresh.spec
  obtain ⟨hm, h1, h2, hmem⟩ := hfresh.first_insert hne H
  have hwf1 := insertOk_wf hwf X H
  have hw : (insertOk s X H).2.width = s.width := (insertOk_geometry s X H).1
  have hhit : (insertOk (insertOk s X H).2 X H).1 = Outcome.Hit := by
    rw [insertOk_hit, hw]; exact hmem
  obtain ⟨c1, c2⟩ := (insertOk_counters (insertOk s X H).2 X H).1 hhit
  refine ⟨hwf.1, (insertOk (insertOk s X H).2 X H).2, ?_, ?_, ?_⟩
  · rw [insertAll_eq _ hwf]
    simp only [runOk, hm, hhit]
  · rw [c1, h2]; decide
  · rw [c2, h1]

/-- Witness for the amended C4: the theorem applies to `demo` and the line
id 5. -/
theorem immediate_repeat_nonzero_hits_witness :
    FreshlyReset demo ∧ (5 : Nat) ≠ 0 ∧ (1 ≤ demo.width ∧
    ∃ s2, insertAll demo [(5, 0), (5, 0)] = some ([Outcome.Miss, Outcome.Hit], s2) ∧
      s2.hits = 1 ∧ s2.misses = 1) :=
  ⟨Or.inl ⟨demo, by decide, by decide⟩, by decide,
    immediate_repeat_nonzero_hits demo 5 0 (Or.inl ⟨demo, by decide, by decide⟩) (by decide)⟩

/-- C5: from every well-formed object (a freshly cleared one included), after
`depth + 1 = 17` pairwise distinct line ids `L0, L1, …, L16` were inserted in
that order with hashes that all select the same set, the calls have all run to
completion and a following `insert` of `L0` into that set is a Miss. -/
theorem evicted_after_depth_distinct (s : CacheHitCounter) (L0 h0 : Nat)
    (rest : List (Nat × Nat)) (hagain : Nat) (hwf : WF s) (hlen : rest.length = depth)
    (hnd : (L0 :: rest.map Prod.fst).Nodup)
    (hset : ∀ a ∈ rest, a.2 % s.width = h0 % s.width)
    (hag : hagain % s.width = h0 % s.width) :
    ((L0, h0) :: rest).length = 17 ∧
    ∃ os s1 s2, insertAll s ((L0, h0) :: rest) = some (os, s1) ∧
      insertReport s1 L0 hagain = some (Outcome.Miss, s2) ∧
      s2.misses = (s1.misses + 1) % sizeMod ∧ s2.hits = s1.hits := by
  obtain ⟨hwf1, hw1, -, -⟩ := runOk_spec ((L0, h0) :: rest) hwf
  have hres := distinct_run_set hwf L0 h0 rest hlen hnd hset
  have hmiss : (insertOk (runOk s ((L0, h0) :: rest)).2 L0 hagain).1 = Outcome.Miss := by
    rcases outcome_cases (insertOk (runOk s ((L0, h0) :: rest)).2 L0 hagain).1 with ho | ho
    · rw [insertOk_hit, hw1, hag, hres, List.mem_reverse] at ho
      exact absurd ho (List.nodup_cons.1 hnd).1
    · exact ho
  obtain ⟨c1, c2⟩ := (insertOk_counters _ L0 hagain).2 hmiss
  refine ⟨by rw [List.length_cons, hlen, depth_eq], (runOk s ((L0, h0) :: rest)).1,
    (runOk s ((L0, h0) :: rest)).2, (insertOk (runOk s ((L0, h0) :: rest)).2 L0 hagain).2,
    insertAll_eq _ hwf, ?_, c1, c2⟩
  rw [insertReport_eq hwf1, ← hmiss]

/-- Witness for C5: the theorem applies to `demo` and the line ids
`0, 1, …, 16`, all with hash 0. -/
theorem evicted_after_depth_distinct_witness :
    WF demo ∧ sixteenLines.length = depth ∧ (0 :: sixteenLines.map Prod.fst).Nodup ∧
    (∀ a ∈ sixteenLines, a.2 % demo.width = 0 % demo.width) ∧ 0 % demo.width = 0 % demo.width ∧
    (((0, 0) :: sixteenLines).length = 17 ∧
    ∃ os s1 s2, insertAll demo ((0, 0) :: sixteenLines) = some (os, s1) ∧
      insertReport s1 0 0 = some (Outcome.Miss, s2) ∧
      s2.misses = (s1.misses + 1) % sizeMod ∧ s2.hits = s1.hits) :=
  ⟨by decide, by decide, by decide, by decide, rfl,
    evicted_after_depth_distinct demo 0 0 sixteenLines 0 (by decide) (by decide) (by decide)
      (by decide) rfl⟩

/-- C6: in the state reached from a well-formed object by inserting 17 pairwise
distinct line ids `L0, …, L16` in that order into the same set, that set holds
exactly `L16, L15, …, L1` at positions `0..15`, and an `insert` of any one `Li`
with `1 ≤ i ≤ 16` into that set, made directly in that state, is a Hit. -/
theorem retained_after_depth_distinct (s : CacheHitCounter) (L0 h0 : Nat)
    (rest : List (Nat × Nat)) (hwf : WF s) (hlen : rest.length = depth)
    (hnd : (L0 :: rest.map Prod.fst).Nodup)
    (hset : ∀ a ∈ rest, a.2 % s.width = h0 % s.width) :
    ((L0, h0) :: rest).length = 17 ∧
    ∃ os s1, insertAll s ((L0, h0) :: rest) = some (os, s1) ∧
      (∀ r, r < depth →
        s1.addresses[(h0 % s.width) * depth + r]? = (rest.map Prod.fst).reverse[r]?) ∧
      (∀ a ∈ rest, ∀ h, h % s.width = h0 % s.width →
        ∃ s2, insertReport s1 a.1 h = some (Outcome.Hit, s2) ∧
          s2.hits = (s1.hits + 1) % sizeMod ∧ s2.misses = s1.misses) := by
  obtain ⟨hwf1, hw1, -, -⟩ := runOk_spec ((L0, h0) :: rest) hwf
  have hres := distinct_run_set hwf L0 h0 rest hlen hnd hset
  refine ⟨by rw [List.length_cons, hlen, depth_eq], (runOk s ((L0, h0) :: rest)).1,
    (runOk s ((L0, h0) :: rest)).2, insertAll_eq _ hwf, ?_, ?_⟩
  · intro r hr
    rw [← hres, getSet_getElem?, if_pos hr]
  · intro a ha h hh
    have hhit : (insertOk (runOk s ((L0, h0) :: rest)).2 a.1 h).1 = Outcome.Hit := by
      rw [insertOk_hit, hw1, hh, hres, List.mem_reverse]
      exact List.mem_map_of_mem Prod.fst ha
    obtain ⟨c1, c2⟩ := (insertOk_counters _ a.1 h).1 hhit
    refine ⟨(insertOk (runOk s ((L0, h0) :: rest)).2 a.1 h).2, ?_, c1, c2⟩
    rw [insertReport_eq hwf1, ← hhit]

/-- Witness for C6: the theorem applies to `demo` and the line ids
`20, 21, …, 36`, all with hash 0. -/
theorem retained_after_depth_distinct_witness :
    WF demo ∧ sixteenOthers.length = depth ∧ (20 :: sixteenOthers.map Prod.fst).Nodup ∧
    (∀ a ∈ sixteenOthers, a.2 % demo.width = 0 % demo.width) ∧
    (((20, 0) :: sixteenOthers).length = 17 ∧
    ∃ os s1, insertAll demo ((20, 0) :: sixteenOthers) = some (os, s1) ∧
      (∀ r, r < depth →
        s1.addresses[(0 % demo.width) * depth + r]? = (sixteenOthers.map Prod.fst).reverse[r]?) ∧
      (∀ a ∈ sixteenOthers, ∀ h, h % demo.width = 0 % demo.width →
        ∃ s2, insertReport s1 a.1 h = some (Outcome.Hit, s2) ∧
          s2.hits = (s1.hits + 1) % sizeMod ∧ s2.misses = s1.misses)) :=
  ⟨by decide, by decide, by decide, by decide,
    retained_after_depth_distinct demo 20 0 sixteenOthers (by decide) (by decide) (by decide)
      (by decide)⟩

/-- C7: on every well-formed object, `insert(l, h)` changes no way-slot outside
set `h % width`; and for every access sequence and every set `A`, the run of
the whole sequence and the run of the sequence with all accesses to other sets
deleted both complete, give every access that selects `A` the same Hit/Miss
outcome, and leave the same content in set `A`. -/
theorem set_isolation (s : CacheHitCounter) (accs : List (Nat × Nat)) (A : Nat) (hwf : WF s) :
    (∀ l h, ∃ s1, insert s l h = some s1 ∧
      ∀ i, ¬ ((h % s.width) * depth ≤ i ∧ i < (h % s.width) * depth + depth) →
        s1.addresses[i]? = s.addresses[i]?) ∧
    ∃ os s1 osA sA, insertAll s accs = some (os, s1) ∧
      insertAll s (accs.filter (fun a => decide (a.2 % s.width = A))) = some (osA, sA) ∧
      os.length = accs.length ∧
      ((accs.zip os).filter (fun p => decide (p.1.2 % s.width = A))).map Prod.snd = osA ∧
      ∀ r, r < depth → s1.addresses[A * depth + r]? = sA.addresses[A * depth + r]? := by
  constructor
  · intro l h
    refine ⟨(insertOk s l h).2, insert_eq hwf l h, ?_⟩
    intro i hi
    rw [insertOk_getElem? hwf, if_neg hi]
  · refine ⟨(runOk s accs).1, (runOk s accs).2,
      (runOk s (accs.filter (fun a => decide (a.2 % s.width = A)))).1,
      (runOk s (accs.filter (fun a => decide (a.2 % s.width = A)))).2,
      insertAll_eq _ hwf, insertAll_eq _ hwf, (runOk_spec accs hwf).2.2.1,
      runOk_filter A s.width accs hwf hwf rfl rfl rfl, ?_⟩
    intro r hr
    have e1 := runOk_getSet A accs hwf
    have e2 := runOk_getSet A (accs.filter (fun a => decide (a.2 % s.width = A))) hwf
    rw [List.filter_filter] at e2
    simp only [Bool.and_self] at e2
    rw [← e2] at e1
    have := congrArg (fun l => l[r]?) e1
    simp only [getSet_getElem?, if_pos hr] at this
    exact this

/-- Witness for C7: the theorem applies to the two-set object `demo2`, a run
that alternates between its sets, and set 1. -/
theorem set_isolation_witness :
    WF demo2 ∧
    ((∀ l h, ∃ s1, insert demo2 l h = some s1 ∧
      ∀ i, ¬ ((h % demo2.width) * depth ≤ i ∧ i < (h % demo2.width) * depth + depth) →
        s1.addresses[i]? = demo2.addresses[i]?) ∧
    ∃ os s1 osA sA, insertAll demo2 [(5, 1), (6, 0), (5, 3), (8, 2), (6, 1)] = some (os, s1) ∧
      insertAll demo2 ([(5, 1), (6, 0), (5, 3), (8, 2), (6, 1)].filter
        (fun a => decide (a.2 % demo2.width = 1))) = some (osA, sA) ∧
      os.length = [(5, 1), (6, 0), (5, 3), (8, 2), (6, 1)].length ∧
      (([(5, 1), (6, 0), (5, 3), (8, 2), (6, 1)].zip os).filter
        (fun p => decide (p.1.2 % demo2.width = 1))).map Prod.snd = osA ∧
      ∀ r, r < depth → s1.addresses[1 * depth + r]? = sA.addresses[1 * depth + r]?) :=
  ⟨by decide, set_isolation demo2 [(5, 1), (6, 0), (5, 3), (8, 2), (6, 1)] 1 (by decide)⟩

/-- C8: on every object whose storage holds its `addressesLen` way-slots,
whatever the counters, the slots and the geometry are, `clear()` runs to
completion; afterwards `hits == 0`, `misses == 0`, every one of the
`addressesLen` way-slots is 0, the geometry fields `maxSize`, `width`,
`widthMask` and `addressesLen` are unchanged, and a second `clear()` changes
nothing. -/
theorem clear_idempotent (s : CacheHitCounter) (halloc : s.addressesLen ≤ s.addresses.length) :
    ∃ s1, clear s = some s1 ∧ s1.hits = 0 ∧ s1.misses = 0 ∧
      (∀ i, i < s1.addressesLen → s1.addresses[i]? = some 0) ∧
      s1.maxSize = s.maxSize ∧ s1.width = s.width ∧ s1.widthMask = s.widthMask ∧
      s1.addressesLen = s.addressesLen ∧ s1.addresses.length = s.addresses.length ∧
      clear s1 = some s1 := by
  refine ⟨_, clear_eq s halloc, rfl, rfl, ?_, rfl, rfl, rfl, rfl, ?_, ?_⟩
  · intro i hi
    show (List.replicate s.addressesLen 0 ++ s.addresses.drop s.addressesLen)[i]? = some 0
    rw [List.getElem?_append_left (by rw [List.length_replicate]; exact hi),
      List.getElem?_replicate, if_pos hi]
  · show (List.replicate s.addressesLen 0 ++ s.addresses.drop s.addressesLen).length = _
    rw [List.length_append, List.length_replicate, List.length_drop]
    omega
  · rw [clear_eq _ (by
      show s.addressesLen ≤
        (List.replicate s.addressesLen 0 ++ s.addresses.drop s.addressesLen).length
      rw [List.length_append, List.length_replicate]
      omega)]
    have hdrop : (List.replicate s.addressesLen 0 ++ s.addresses.drop s.addressesLen).drop
        s.addressesLen = s.addresses.drop s.addressesLen := by
      rw [List.drop_append_of_le_length (by rw [List.length_replicate])]
      rw [List.drop_of_length_le (by rw [List.length_replicate]), List.nil_append]
    simp only [hdrop]

/-- Witness for C8: the theorem applies to an object with non-zero counters and
slots. -/
theorem clear_idempotent_witness :
    ({ demo with hits := 3, misses := 4, addresses := List.replicate 16 9 } :
        CacheHitCounter).addressesLen ≤
      ({ demo with hits := 3, misses := 4, addresses := List.replicate 16 9 } :
        CacheHitCounter).addresses.length ∧
    ∃ s1, clear { demo with hits := 3, misses := 4, addresses := List.replicate 16 9 } = some s1 ∧
      s1.hits = 0 ∧ s1.misses = 0 ∧
      (∀ i, i < s1.addressesLen → s1.addresses[i]? = some 0) ∧
      s1.maxSize = 1024 ∧ s1.width = 1 ∧ s1.widthMask = 0 ∧
      s1.addressesLen = 16 ∧ s1.addresses.length = 16 ∧
      clear s1 = some s1 :=
  ⟨by decide,
    clear_idempotent { demo with hits := 3, misses := 4, addresses := List.replicate 16 9 }
      (by decide)⟩

/-- C9, counterexample: `2^63 = 2^53 * depth * cacheLineSize` is a `size_t`
value of the stated form, but `initialize(2^63)` asks `new` for `2^57` words
(`2^60` bytes); on a free store that cannot meet the request, `new` throws and
`initialize` yields no model. -/
theorem initialise_huge_does_not_return :
    2 ^ 63 = 2 ^ 53 * (depth * cacheLineSize) ∧ 2 ^ 63 < sizeMod ∧
      (depth * (2 ^ 63 / (depth * cacheLineSize))) % sizeMod = 2 ^ 57 ∧
      tightHeap (2 ^ 57) = none ∧ initialise demo (2 ^ 63) tightHeap = none :=
  ⟨by decide, by decide, by decide, rfl, by decide⟩

/-- C9, amended: for every `size_t` value `size` of the form
`2^k * depth * cacheLineSize` (`= 2^k * 1024`, `k ≥ 0`) for which the
allocation of the `depth * 2^k` way-slots succeeds, `initialize(size)` runs to
completion and yields `width == size / 1024 == 2^k` (a positive power of two),
`addressesLen == width * depth`, every way-slot 0, `hits == 0`, `misses == 0`
and `getTotalAccesses() == 0`. -/
theorem initialise_power_of_two (s0 : CacheHitCounter) (size k : Nat)
    (heap : Nat → Option (Nat → Nat)) (junk : Nat → Nat)
    (hsize : size = 2 ^ k * (depth * cacheLineSize)) (hfit : size < sizeMod)
    (halloc : heap (depth * 2 ^ k) = some junk) :
    depth * cacheLineSize = 1024 ∧
    ∃ s, initialise s0 size heap = some s ∧ s.width = size / 1024 ∧ s.width = 2 ^ k ∧
      0 < s.width ∧ s.addressesLen = s.width * depth ∧ s.addresses.length = s.addressesLen ∧
      (∀ i, i < s.addressesLen → s.addresses[i]? = some 0) ∧
      s.hits = 0 ∧ s.misses = 0 ∧ (getTotalAccesses s).1 = 0 := by
  have hc : depth * cacheLineSize = 1024 := by decide
  rw [hc] at hsize
  have hw : size / 1024 = 2 ^ k := by
    rw [hsize]; exact Nat.mul_div_cancel _ (by omega)
  have hpow : 0 < 2 ^ k := Nat.two_pow_pos k
  have hreq := request_eq hfit
  have hlen : (depth * (size / 1024)) % sizeMod = size / 1024 * depth := by
    rw [hreq, Nat.mul_comm]
  rw [← hw, ← hreq] at halloc
  refine ⟨hc, _, initialise_eq s0 size halloc, rfl, hw, by rw [hw]; exact hpow, hlen, ?_, ?_,
    rfl, rfl, rfl⟩
  · show (List.replicate _ 0).length = _
    rw [List.length_replicate]
  · intro i hi
    show (List.replicate ((depth * (size / 1024)) % sizeMod) 0)[i]? = some 0
    rw [List.getElem?_replicate, if_pos hi]

/-- Witness for the amended C9: the theorem applies to `size = 2^1 * 1024` on a
free store that meets the request. -/
theorem initialise_power_of_two_witness :
    2048 = 2 ^ 1 * (depth * cacheLineSize) ∧ 2048 < sizeMod ∧
    roomyHeap (depth * 2 ^ 1) = some (fun i => i + 7) ∧
    (depth * cacheLineSize = 1024 ∧
    ∃ s, initialise demo 2048 roomyHeap = some s ∧ s.width = 2048 / 1024 ∧ s.width = 2 ^ 1 ∧
      0 < s.width ∧ s.addressesLen = s.width * depth ∧ s.addresses.length = s.addressesLen ∧
      (∀ i, i < s.addressesLen → s.addresses[i]? = some 0) ∧
      s.hits = 0 ∧ s.misses = 0 ∧ (getTotalAccesses s).1 = 0) :=
  ⟨by decide, by decide, rfl,
    initialise_power_of_two demo 2048 1 roomyHeap (fun i => i + 7) (by decide) (by decide) rfl⟩

/-- C10, counterexample: for `size == 3 * 1024`, where
`size / (depth * cacheLineSize) == 3` is not a power of two, `initialize(size)`
does not fail once its 48 way-slots are allocated: it yields an object with
`width == 3` and 48 zeroed way-slots. -/
theorem initialise_accepts_three_sets :
    3 * 1024 / (depth * cacheLineSize) = 3 ∧ (∀ k, k < 64 → 2 ^ k ≠ 3) ∧
      ∃ s, initialise demo (3 * 1024) roomyHeap = some s ∧ s.width = 3 ∧
        s.addressesLen = 48 ∧ s.addresses = List.replicate 48 0 :=
  ⟨by decide, by decide,
    { demo with maxSize := 3072, width := 3, widthMask := 2, addressesLen := 48,
                addresses := List.replicate 48 0 },
    by decide, rfl, rfl, rfl⟩

/-- C10, amended: `initialize(size)` does not validate the geometry and raises
no configuration error.  For every `size_t` value `size`, also when
`size / (depth * cacheLineSize)` is not a positive power of two, the call
returns exactly when the allocation of its `depth * width` way-slots succeeds,
and then it yields an object with `maxSize == size`,
`width == size / (depth * cacheLineSize)` (integer division, 0 when
`size < 1024`), `addressesLen == depth * width`, every way-slot 0 and both
counters 0. -/
theorem initialise_never_rejects (s0 : CacheHitCounter) (size : Nat)
    (heap : Nat → Option (Nat → Nat)) (hfit : size < sizeMod) :
    (initialise s0 size heap = none ↔
        heap (depth * (size / (depth * cacheLineSize))) = none) ∧
      ∀ junk, heap (depth * (size / (depth * cacheLineSize))) = some junk →
        ∃ s, initialise s0 size heap = some s ∧ s.maxSize = size ∧
          s.width = size / (depth * cacheLineSize) ∧ s.addressesLen = depth * s.width ∧
          s.addresses = List.replicate s.addressesLen 0 ∧ s.hits = 0 ∧ s.misses = 0 := by
  have hc : depth * cacheLineSize = 1024 := by decide
  have hreq := request_eq hfit
  rw [hc]
  have hsome : ∀ junk, heap (depth * (size / 1024)) = some junk →
      ∃ s, initialise s0 size heap = some s ∧ s.maxSize = size ∧
        s.width = size / 1024 ∧ s.addressesLen = depth * s.width ∧
        s.addresses = List.replicate s.addressesLen 0 ∧ s.hits = 0 ∧ s.misses = 0 := by
    intro junk halloc
    rw [← hreq] at halloc
    exact ⟨_, initialise_eq s0 size halloc, rfl, rfl, hreq, rfl, rfl, rfl⟩
  refine ⟨⟨fun hnone => ?_, fun halloc => ?_⟩, hsome⟩
  · rcases hh : heap (depth * (size / 1024)) with _ | junk
    · rfl
    · obtain ⟨s, hs, -⟩ := hsome junk hh
      rw [hs] at hnone
      cases hnone
  · rw [← hreq] at halloc
    exact initialise_none s0 size halloc

/-- Witness for the amended C10: the theorem applies to `size == 0`. -/
theorem initialise_never_rejects_witness :
    0 < sizeMod ∧
    ((initialise demo 0 roomyHeap = none ↔
        roomyHeap (depth * (0 / (depth * cacheLineSize))) = none) ∧
      ∀ junk, roomyHeap (depth * (0 / (depth * cacheLineSize))) = some junk →
        ∃ s, initialise demo 0 roomyHeap = some s ∧ s.maxSize = 0 ∧
          s.width = 0 / (depth * cacheLineSize) ∧ s.addressesLen = depth * s.width ∧
          s.addresses = List.replicate s.addressesLen 0 ∧ s.hits = 0 ∧ s.misses = 0) :=
  ⟨by decide, initialise_never_rejects demo 0 roomyHeap (by decide)⟩

/-- C11: the constructor of `TraceWriter` initializes its model with
`MB(8)` = 8 MiB; once the `depth * 8192` way-slots are allocated this gives
`width == 8192` sets, and feeding the virtual addresses `0x1000`, `0x1040`,
`0x1000` through `mem_cb` (hash `v ^ (v >> 13)`) runs to completion and yields
Miss, Miss, Hit, ending with `hits == 1`, `misses == 2`, three accesses in
total and hit ratio 1/3. -/
theorem scenario_eight_mib (c0 : CacheHitCounter) (heap : Nat → Option (Nat → Nat))
    (junk : Nat → Nat) (c : Int) (p sz : Nat) (w : Int)
    (halloc : heap (depth * 8192) = some junk) :
    MB 8 = 8 * 1024 * 1024 ∧
    ∃ tw0 tw1 tw2 tw3, create c0 heap = some tw0 ∧ tw0.counter.width = 8192 ∧
      mem_cb tw0 c 0x1000 p sz w = some tw1 ∧ mem_cb tw1 c 0x1040 p sz w = some tw2 ∧
      mem_cb tw2 c 0x1000 p sz w = some tw3 ∧
      insertAll tw0.counter
          [(0x1000, hashedAddr 0x1000), (0x1040, hashedAddr 0x1040),
            (0x1000, hashedAddr 0x1000)] =
        some ([Outcome.Miss, Outcome.Miss, Outcome.Hit], tw3.counter) ∧
      tw3.counter.hits = 1 ∧ tw3.counter.misses = 2 ∧
      (getTotalAccesses tw3.counter).1 = 3 ∧ (get_hit_ratio tw3).1 = some (1 / 3) := by
  obtain ⟨tw0, hcreate, -, hfresh, hwidth, -⟩ := create_eq c0 halloc
  obtain ⟨hwf0, -, -, -⟩ := hfresh.spec
  have hne : hashedAddr 0x1040 % tw0.counter.width ≠ hashedAddr 0x1000 % tw0.counter.width := by
    rw [hwidth]; decide
  obtain ⟨s1, s2, s3, -, -, i1, i2, i3, hrun, hhits, hmisses⟩ :=
    runOk_miss_miss_hit hfresh 0x1000 0x1040 (hashedAddr 0x1000) (hashedAddr 0x1040)
      (by decide) (by decide) hne
  have hsum : s3.hits + s3.misses = 3 := by rw [hhits, hmisses]
  refine ⟨by decide, tw0, { tw0 with counter := s1 }, { tw0 with counter := s2 },
    { tw0 with counter := s3 }, hcreate, hwidth, mem_cb_of_insert tw0 c _ p sz w i1,
    mem_cb_of_insert { tw0 with counter := s1 } c _ p sz w i2,
    mem_cb_of_insert { tw0 with counter := s2 } c _ p sz w i3, hrun, hhits, hmisses, ?_, ?_⟩
  · show (s3.hits + s3.misses) % sizeMod = 3
    rw [hsum]; decide
  · show (getHitRatio s3).1 = some (1 / 3)
    rw [getHitRatio_fst s3 (by omega) (by rw [hsum]; decide), hhits, hmisses]
    norm_num

/-- Witness for C11: the theorem applies to a free store that meets the
request for the `depth * 8192` way-slots. -/
theorem scenario_eight_mib_witness :
    roomyHeap (depth * 8192) = some (fun i => i + 7) ∧
    (MB 8 = 8 * 1024 * 1024 ∧
    ∃ tw0 tw1 tw2 tw3, create demo roomyHeap = some tw0 ∧ tw0.counter.width = 8192 ∧
      mem_cb tw0 0 0x1000 0 8 0 = some tw1 ∧ mem_cb tw1 0 0x1040 0 8 0 = some tw2 ∧
      mem_cb tw2 0 0x1000 0 8 0 = some tw3 ∧
      insertAll tw0.counter
          [(0x1000, hashedAddr 0x1000), (0x1040, hashedAddr 0x1040),
            (0x1000, hashedAddr 0x1000)] =
        some ([Outcome.Miss, Outcome.Miss, Outcome.Hit], tw3.counter) ∧
      tw3.counter.hits = 1 ∧ tw3.counter.misses = 2 ∧
      (getTotalAccesses tw3.counter).1 = 3 ∧ (get_hit_ratio tw3).1 = some (1 / 3)) :=
  ⟨rfl, scenario_eight_mib demo roomyHeap (fun i => i + 7) 0 0 8 0 rfl⟩

/-- C12: for every 64-bit `v` and every well-formed model,
`mem_cb(c, v, p, s, w)` runs to completion, forwards to `insert` the line id
`v` and the set hash `v ^ (v >> 13)` (a logical shift, the result again a
64-bit value), and leaves the same state for all values of `c`, `p`, `s` and
`w`. -/
theorem mem_cb_uses_only_virtual_address (tw : TraceWriter) (c : Int) (v p sz : Nat) (w : Int)
    (hv : v < 2 ^ 64) (hwf : WF tw.counter) :
    hashedAddr v = v ^^^ (v / 2 ^ 13) ∧ hashedAddr v < 2 ^ 64 ∧
    ∃ tw1, mem_cb tw c v p sz w = some tw1 ∧
      insert tw.counter v (v ^^^ (v >>> 13)) = some tw1.counter ∧
      tw1.finished = tw.finished ∧
      ∀ (c1 : Int) (p1 sz1 : Nat) (w1 : Int), mem_cb tw c1 v p1 sz1 w1 = some tw1 := by
  refine ⟨by rw [hashedAddr, Nat.shiftRight_eq_div_pow], hashedAddr_lt hv, _,
    mem_cb_eq hwf c v p sz w, insert_eq hwf _ _, rfl, ?_⟩
  intro c1 p1 sz1 w1
  exact mem_cb_eq hwf c1 v p1 sz1 w1

/-- Witness for C12: the theorem applies to the adapter `demoWriter` and the
address `0x1040`. -/
theorem mem_cb_uses_only_virtual_address_witness :
    (0x1040 : Nat) < 2 ^ 64 ∧ WF demoWriter.counter ∧
    (hashedAddr 0x1040 = 0x1040 ^^^ (0x1040 / 2 ^ 13) ∧ hashedAddr 0x1040 < 2 ^ 64 ∧
    ∃ tw1, mem_cb demoWriter 0 0x1040 7 8 1 = some tw1 ∧
      insert demoWriter.counter 0x1040 (0x1040 ^^^ (0x1040 >>> 13)) = some tw1.counter ∧
      tw1.finished = demoWriter.finished ∧
      ∀ (c1 : Int) (p1 sz1 : Nat) (w1 : Int), mem_cb demoWriter c1 0x1040 p1 sz1 w1 = some tw1) :=
  ⟨by decide, by decide,
    mem_cb_uses_only_virtual_address demoWriter 0 0x1040 7 8 1 (by decide) (by decide)⟩

/-- C13, the code at the failing input: `0x1000` and `0x1001` lie in the same
64-byte line, yet `mem_cb` hands `insert` the line ids `0x1000` and `0x1001`;
after the two calls on a fresh one-set model the set holds both values, and
the second access was counted as a Miss. -/
theorem mem_cb_keeps_low_address_bits :
    0x1000 / cacheLineSize = 0x1001 / cacheLineSize ∧
    ∃ tw1 tw2, mem_cb demoWriter 0 0x1000 0 1 0 = some tw1 ∧
      mem_cb tw1 0 0x1001 0 1 0 = some tw2 ∧
      insert tw1.counter 0x1001 (hashedAddr 0x1001) = some tw2.counter ∧
      tw2.counter.addresses.take 2 = [0x1001, 0x1000] ∧
      tw2.counter.hits = 0 ∧ tw2.counter.misses = 2 :=
  ⟨by decide,
    { demoWriter with counter := { demo with misses := 1,
                                             addresses := 0x1000 :: List.replicate 15 0 } },
    { demoWriter with counter := { demo with misses := 2,
                                             addresses := 0x1001 :: 0x1000 :: List.replicate 14 0 } },
    by decide, by decide, by decide, by decide, rfl, rfl⟩

/-- C14: in every sequence of `app_start_cb` calls made from the start of the
program, the first call registers the memory callback and returns 1, and every
later call returns 0 and changes nothing; the memory callback is registered at
most once, and exactly once if `app_start_cb` is called at all. -/
theorem app_start_latch (cs : List Int) :
    (startCalls startState cs).1 =
        (match cs with
          | [] => []
          | _ :: rest => 1 :: List.replicate rest.length 0) ∧
      (startCalls startState cs).2.memCbRegistrations = (if cs = [] then 0 else 1) ∧
      (startCalls startState cs).2.memCbRegistrations ≤ 1 ∧
      (∀ c, app_start_cb startState c = (1, { ran := true, memCbRegistrations := 1 })) ∧
      (∀ n c, app_start_cb { ran := true, memCbRegistrations := n } c =
        (0, { ran := true, memCbRegistrations := n })) := by
  have hfirst : ∀ c, app_start_cb startState c = (1, { ran := true, memCbRegistrations := 1 }) :=
    fun _ => rfl
  cases cs with
  | nil => exact ⟨rfl, rfl, Nat.zero_le _, hfirst, fun _ _ => rfl⟩
  | cons c rest =>
    have hrun : startCalls startState (c :: rest) =
        (1 :: List.replicate rest.length 0, { ran := true, memCbRegistrations := 1 }) := by
      simp only [startCalls, hfirst c, startCalls_ran rest 1]
    rw [hrun]
    exact ⟨rfl, by simp, Nat.le_refl _, hfirst, fun _ _ => rfl⟩

/-- C15: with `double` read as exact rational arithmetic, whenever
`hits + misses > 0` and the sum does not wrap 64 bits,
`getHitRatio() == hits / (hits + misses)`,
`getMissRatio() == misses / (hits + misses)`, the two add up to 1, and neither
accessor changes the object. -/
theorem ratios_sum_to_one (s : CacheHitCounter) (hpos : 0 < s.hits + s.misses)
    (hfit : s.hits + s.misses < sizeMod) :
    (getHitRatio s).1 = some ((s.hits : ℚ) / ((s.hits : ℚ) + (s.misses : ℚ))) ∧
      (getMissRatio s).1 = some ((s.misses : ℚ) / ((s.hits : ℚ) + (s.misses : ℚ))) ∧
      (∃ hr mr, (getHitRatio s).1 = some hr ∧ (getMissRatio s).1 = some mr ∧ hr + mr = 1) ∧
      (getHitRatio s).2 = s ∧ (getMissRatio s).2 = s := by
  have hq : ((s.hits : ℚ) + (s.misses : ℚ)) ≠ 0 := by
    have hne : s.hits + s.misses ≠ 0 := by omega
    have : ((s.hits + s.misses : ℕ) : ℚ) ≠ 0 := Nat.cast_ne_zero.2 hne
    rwa [Nat.cast_add] at this
  refine ⟨getHitRatio_fst s hpos hfit, getMissRatio_fst s hpos hfit,
    ⟨_, _, getHitRatio_fst s hpos hfit, getMissRatio_fst s hpos hfit, ?_⟩, rfl, rfl⟩
  rw [← add_div, div_self hq]

/-- Witness for C15: the theorem applies to an object with one hit and two
misses. -/
theorem ratios_sum_to_one_witness :
    0 < demoCounted.hits + demoCounted.misses ∧ demoCounted.hits + demoCounted.misses < sizeMod ∧
    ((getHitRatio demoCounted).1 =
        some ((demoCounted.hits : ℚ) / ((demoCounted.hits : ℚ) + (demoCounted.misses : ℚ))) ∧
      (getMissRatio demoCounted).1 =
        some ((demoCounted.misses : ℚ) / ((demoCounted.hits : ℚ) + (demoCounted.misses : ℚ))) ∧
      (∃ hr mr, (getHitRatio demoCounted).1 = some hr ∧ (getMissRatio demoCounted).1 = some mr ∧
        hr + mr = 1) ∧
      (getHitRatio demoCounted).2 = demoCounted ∧ (getMissRatio demoCounted).2 = demoCounted) :=
  ⟨by decide, by decide, ratios_sum_to_one demoCounted (by decide) (by decide)⟩

/-- C16, counterexample: in `demoTwoLines` the one set holds 7, 5, 0, …, so
`insert(5, 0)` is a Hit whose first matching slot is at position 1; afterwards
slot 1 holds 7, not its previous value 5. -/
theorem hit_overwrites_matched_slot :
    WF demoTwoLines ∧ demoTwoLines.addresses[0]? = some 7 ∧
      demoTwoLines.addresses[1]? = some 5 ∧
      ∃ s1, insertReport demoTwoLines 5 0 = some (Outcome.Hit, s1) ∧
        s1.addresses[1]? = some 7 ∧ s1.addresses = 5 :: 7 :: List.replicate 14 0 :=
  ⟨by decide, by decide, by decide,
    { demoTwoLines with hits := 1, addresses := 5 :: 7 :: List.replicate 14 0 },
    by decide, by decide, rfl⟩

/-- C16, amended: on a Hit whose first matching slot is at position `r` of the
selected set, `insert` leaves every slot strictly after position `r` (and every
slot outside the set) untouched; the slots `0..r` are rewritten: slot 0
receives `cacheLine` and every slot `i` with `1 ≤ i ≤ r` receives the previous
value of slot `i - 1`. -/
theorem hit_shifts_up_to_match (s : CacheHitCounter) (cacheLine hashedCacheLine r : Nat)
    (hwf : WF s) (hr : r < depth)
    (hbefore : ∀ j, j < r →
      s.addresses[(hashedCacheLine % s.width) * depth + j]? ≠ some cacheLine)
    (hat : s.addresses[(hashedCacheLine % s.width) * depth + r]? = some cacheLine) :
    ∃ s1, insertReport s cacheLine hashedCacheLine = some (Outcome.Hit, s1) ∧
      s1.addresses[(hashedCacheLine % s.width) * depth]? = some cacheLine ∧
      (∀ i, 1 ≤ i → i ≤ r →
        s1.addresses[(hashedCacheLine % s.width) * depth + i]? =
          s.addresses[(hashedCacheLine % s.width) * depth + (i - 1)]?) ∧
      (∀ k, (hashedCacheLine % s.width) * depth + r < k → s1.addresses[k]? = s.addresses[k]?) ∧
      (∀ k, k < (hashedCacheLine % s.width) * depth → s1.addresses[k]? = s.addresses[k]?) := by
  obtain ⟨hhit, hslots⟩ := insertOk_getElem?_hit hwf cacheLine hashedCacheLine r hr hbefore hat
  have hd : 0 < depth := by rw [depth_eq]; omega
  refine ⟨(insertOk s cacheLine hashedCacheLine).2, ?_, ?_, ?_, ?_, ?_⟩
  · rw [insertReport_eq hwf, ← hhit]
  · have := hslots 0 hd
    rw [if_pos rfl, Nat.add_zero] at this
    exact this
  · intro i h1 h2
    rw [hslots i (by omega), if_neg (by omega), if_pos h2]
  · intro k hk
    by_cases hin : k < (hashedCacheLine % s.width) * depth + depth
    · have := hslots (k - (hashedCacheLine % s.width) * depth) (by omega)
      rw [if_neg (by omega), if_neg (by omega)] at this
      rw [show (hashedCacheLine % s.width) * depth + (k - (hashedCacheLine % s.width) * depth) = k
        by omega] at this
      exact this
    · rw [insertOk_getElem? hwf, if_neg (by omega)]
  · intro k hk
    rw [insertOk_getElem? hwf, if_neg (by omega)]

/-- Witness for the amended C16: the theorem applies to `demoTwoLines` and the
access `insert(5, 0)`, whose first match is at position 1. -/
theorem hit_shifts_up_to_match_witness :
    WF demoTwoLines ∧ 1 < depth ∧
    (∀ j, j < 1 → demoTwoLines.addresses[(0 % demoTwoLines.width) * depth + j]? ≠ some 5) ∧
    demoTwoLines.addresses[(0 % demoTwoLines.width) * depth + 1]? = some 5 ∧
    ∃ s1, insertReport demoTwoLines 5 0 = some (Outcome.Hit, s1) ∧
      s1.addresses[(0 % demoTwoLines.width) * depth]? = some 5 ∧
      (∀ i, 1 ≤ i → i ≤ 1 →
        s1.addresses[(0 % demoTwoLines.width) * depth + i]? =
          demoTwoLines.addresses[(0 % demoTwoLines.width) * depth + (i - 1)]?) ∧
      (∀ k, (0 % demoTwoLines.width) * depth + 1 < k →
        s1.addresses[k]? = demoTwoLines.addresses[k]?) ∧
      (∀ k, k < (0 % demoTwoLines.width) * depth →
        s1.addresses[k]? = demoTwoLines.addresses[k]?) :=
  ⟨by decide, by decide, by decide, by decide,
    hit_shifts_up_to_match demoTwoLines 5 0 1 (by decide) (by decide) (by decide) (by decide)⟩

/-- C17: on a Miss the selected set has been fully shifted: if it held
`[a0, a1, …, a15]` before the call it holds `[cacheLine, a0, …, a14]`
afterwards, so the new line id is at position 0 and the previous content of the
last slot is gone. -/
theorem miss_shifts_whole_set (s s1 : CacheHitCounter) (cacheLine hashedCacheLine : Nat)
    (hwf : WF s)
    (hmiss : insertReport s cacheLine hashedCacheLine = some (Outcome.Miss, s1)) :
    (getSet s (hashedCacheLine % s.width)).length = 16 ∧
      getSet s1 (hashedCacheLine % s.width) =
        cacheLine :: (getSet s (hashedCacheLine % s.width)).dropLast ∧
      s1.addresses[(hashedCacheLine % s.width) * depth]? = some cacheLine ∧
      (∀ i, i + 1 < depth →
        s1.addresses[(hashedCacheLine % s.width) * depth + (i + 1)]? =
          s.addresses[(hashedCacheLine % s.width) * depth + i]?) := by
  rw [insertReport_eq hwf] at hmiss
  have hpair : insertOk s cacheLine hashedCacheLine = (Outcome.Miss, s1) := Option.some.inj hmiss
  have ho : (insertOk s cacheLine hashedCacheLine).1 = Outcome.Miss := by rw [hpair]
  have hs : (insertOk s cacheLine hashedCacheLine).2 = s1 := by rw [hpair]
  have hset := insertOk_getSet_miss hwf cacheLine hashedCacheLine ho
  rw [hs] at hset
  have hlen := getSet_length hwf hashedCacheLine
  have hd : depth = 16 := depth_eq
  have hslot : ∀ i, i < depth → s1.addresses[(hashedCacheLine % s.width) * depth + i]? =
      (cacheLine :: (getSet s (hashedCacheLine % s.width)).dropLast)[i]? := by
    intro i hi
    rw [← hset, getSet_getElem?, if_pos hi]
  refine ⟨by rw [hlen, hd], hset, ?_, ?_⟩
  · have := hslot 0 (by omega)
    rw [Nat.add_zero] at this
    rw [this, List.getElem?_cons_zero]
  · intro i hi
    rw [hslot (i + 1) hi, List.getElem?_cons_succ, List.dropLast_eq_take, List.getElem?_take,
      if_pos (by omega), getSet_getElem?, if_pos (by omega)]

/-- Witness for C17: the theorem applies to the Miss `insert(9, 0)` on
`demoTwoLines`. -/
theorem miss_shifts_whole_set_witness :
    WF demoTwoLines ∧
    insertReport demoTwoLines 9 0 =
      some (Outcome.Miss,
        { demoTwoLines with misses := 1, addresses := 9 :: 7 :: 5 :: List.replicate 13 0 }) ∧
    ((getSet demoTwoLines (0 % demoTwoLines.width)).length = 16 ∧
      getSet ({ demoTwoLines with
            misses := 1, addresses := 9 :: 7 :: 5 :: List.replicate 13 0 } : CacheHitCounter)
          (0 % demoTwoLines.width) =
        9 :: (getSet demoTwoLines (0 % demoTwoLines.width)).dropLast ∧
      ({ demoTwoLines with
            misses := 1, addresses := 9 :: 7 :: 5 :: List.replicate 13 0 } :
          CacheHitCounter).addresses[(0 % demoTwoLines.width) * depth]? = some 9 ∧
      (∀ i, i + 1 < depth →
        ({ demoTwoLines with
              misses := 1, addresses := 9 :: 7 :: 5 :: List.replicate 13 0 } :
            CacheHitCounter).addresses[(0 % demoTwoLines.width) * depth + (i + 1)]? =
          demoTwoLines.addresses[(0 % demoTwoLines.width) * depth + i]?)) :=
  ⟨by decide, by decide,
    miss_shifts_whole_set demoTwoLines
      { demoTwoLines with misses := 1, addresses := 9 :: 7 :: 5 :: List.replicate 13 0 } 9 0
      (by decide) (by decide)⟩

/-- C18: for every model produced by `initialize(size)` with `size ≥ 1024`
(the allocation of its way-slots having succeeded) and then driven by any
sequence of `clear` and `insert` calls, all calls run to completion and the
invariant `addressesLen == width * depth` with `width ≥ 1` holds (the storage
holding exactly `addressesLen` slots); so in every further `insert` the divisor
of the modulo is non-zero, every slot index `col*depth + r` with
`0 ≤ r < depth` is below `addressesLen`, and the call completes without leaving
the storage. -/
theorem bounds_safety (s0 : CacheHitCounter) (size : Nat) (heap : Nat → Option (Nat → Nat))
    (junk : Nat → Nat) (calls : List Call) (hsize : 1024 ≤ size) (hfit : size < sizeMod)
    (halloc : heap (depth * (size / 1024)) = some junk) :
    ∃ s s1, initialise s0 size heap = some s ∧ drive s calls = some s1 ∧
      s1.addressesLen = s1.width * depth ∧ 1 ≤ s1.width ∧
      s1.addresses.length = s1.addressesLen ∧
      ∀ cacheLine hashedCacheLine, s1.width ≠ 0 ∧
        (∀ r, r < depth → (hashedCacheLine % s1.width) * depth + r < s1.addressesLen) ∧
        ∃ s2, insert s1 cacheLine hashedCacheLine = some s2 := by
  obtain ⟨s, hi, hfresh, -, -⟩ := initialise_fresh s0 size hsize hfit halloc
  obtain ⟨hwf, -, -, -⟩ := hfresh.spec
  obtain ⟨s1, hdrive, hwf1⟩ := drive_wf calls hwf
  refine ⟨s, s1, hi, hdrive, by rw [hwf1.2.1, Nat.mul_comm], hwf1.1, hwf1.2.2.1, ?_⟩
  intro cl h
  refine ⟨by have := hwf1.1; omega, ?_, _, insert_eq hwf1 cl h⟩
  intro r hr
  have hb := (col_bound hwf1 h).1
  rw [hwf1.2.2.1] at hb
  omega

/-- Witness for C18: the theorem applies to `initialize(2048)` on a free store
that meets the request, followed by an insert, a clear and another insert. -/
theorem bounds_safety_witness :
    1024 ≤ 2048 ∧ 2048 < sizeMod ∧ roomyHeap (depth * (2048 / 1024)) = some (fun i => i + 7) ∧
    ∃ s s1, initialise demo 2048 roomyHeap = some s ∧
      drive s [Call.insert 5 1, Call.clear, Call.insert 6 0] = some s1 ∧
      s1.addressesLen = s1.width * depth ∧ 1 ≤ s1.width ∧
      s1.addresses.length = s1.addressesLen ∧
      ∀ cacheLine hashedCacheLine, s1.width ≠ 0 ∧
        (∀ r, r < depth → (hashedCacheLine % s1.width) * depth + r < s1.addressesLen) ∧
        ∃ s2, insert s1 cacheLine hashedCacheLine = some s2 :=
  ⟨by decide, by decide, rfl,
    bounds_safety demo 2048 roomyHeap (fun i => i + 7)
      [Call.insert 5 1, Call.clear, Call.insert 6 0] (by decide) (by decide) rfl⟩

/-- C19: on every well-formed object `insert` is exactly move-to-front on the
selected set: the set (16 slots) after the call equals the list obtained by
removing the first occurrence of `cacheLine` from its previous content (or, if
there is none, removing the last element) and prepending `cacheLine`, wherever
the match is. -/
theorem insert_is_move_to_front (s : CacheHitCounter) (cacheLine hashedCacheLine : Nat)
    (hwf : WF s) :
    ∃ s1, insert s cacheLine hashedCacheLine = some s1 ∧
      (getSet s (hashedCacheLine % s.width)).length = 16 ∧
      getSet s1 (hashedCacheLine % s.width) =
        moveToFront cacheLine (getSet s (hashedCacheLine % s.width)) := by
  have hlen := getSet_length hwf hashedCacheLine
  have hd : depth = 16 := depth_eq
  refine ⟨_, insert_eq hwf _ _, by rw [hlen, hd], ?_⟩
  rw [insertOk_getSet_same hwf]
  apply shiftIn_eq_moveToFront
  intro hnil
  rw [hnil] at hlen
  simp at hlen
  omega

/-- Witness for C19: the theorem applies to `demoFull` and the line 16, which
sits in the last slot of the set. -/
theorem insert_is_move_to_front_witness :
    WF demoFull ∧ demoFull.addresses[15]? = some 16 ∧
    ∃ s1, insert demoFull 16 0 = some s1 ∧
      (getSet demoFull (0 % demoFull.width)).length = 16 ∧
      getSet s1 (0 % demoFull.width) =
        moveToFront 16 (getSet demoFull (0 % demoFull.width)) :=
  ⟨by decide, by decide, insert_is_move_to_front demoFull 16 0 (by decide)⟩

/-- C20: in every state reached from a freshly initialized or freshly cleared
object by any sequence of `insert` calls (which all run to completion), each
non-zero line id occurs in at most one way-slot of any set. -/
theorem no_duplicate_lines (s : CacheHitCounter) (accs : List (Nat × Nat)) (A x : Nat)
    (hfresh : FreshlyReset s) (hx : x ≠ 0) :
    ∃ os s1, insertAll s accs = some (os, s1) ∧
      ((s1.addresses.drop (A * depth)).take depth).count x ≤ 1 := by
  obtain ⟨hwf, -, -, -⟩ := hfresh.spec
  exact ⟨_, _, insertAll_eq accs hwf, runOk_count_le accs hwf hfresh.count_le A x hx⟩

/-- Witness for C20: the theorem applies to `demo`, a run that repeats the
line 5, and that line. -/
theorem no_duplicate_lines_witness :
    FreshlyReset demo ∧ (5 : Nat) ≠ 0 ∧
    ∃ os s1, insertAll demo [(5, 0), (6, 0), (5, 0), (0, 0), (5, 0)] = some (os, s1) ∧
      ((s1.addresses.drop (0 * depth)).take depth).count 5 ≤ 1 :=
  ⟨Or.inl ⟨demo, by decide, by decide⟩, by decide,
    no_duplicate_lines demo [(5, 0), (6, 0), (5, 0), (0, 0), (5, 0)] 0 5
      (Or.inl ⟨demo, by decide, by decide⟩) (by decide)⟩

end CacheSim
